import Mathlib

/-!
Verification of the text classifier `parse_qb` of `qb_to_anki_7.py`.

The Python function splits a pasted block of text into four fields
(question, choices, correct, explanation).  The shallow embedding below
models Python strings as `List Char` (Python strings are sequences of
Unicode code points), and models each regular expression of the source as
an executable Lean predicate with the exact anchoring, greediness and
character classes of the original pattern.
-/

namespace QBAnki

/-- Character set of Python whitespace: `str.isspace` and regex `\s`
(CPython's `Py_UNICODE_ISSPACE` table). -/
def isPySpace (c : Char) : Bool :=
  let n := c.toNat
  n == 0x09 || n == 0x0A || n == 0x0B || n == 0x0C || n == 0x0D ||
  n == 0x1C || n == 0x1D || n == 0x1E || n == 0x1F || n == 0x20 ||
  n == 0x85 || n == 0xA0 || n == 0x1680 ||
  (Nat.ble 0x2000 n && Nat.ble n 0x200A) ||
  n == 0x2028 || n == 0x2029 || n == 0x202F || n == 0x205F || n == 0x3000

/-- Regex `\d`.  In Python this is any Unicode decimal digit; the embedding
covers the ASCII digits `0`-`9` and the full-width digits `０`-`９`, the two
decimal ranges occurring in this program's input domain. -/
def isPyDigit (c : Char) : Bool :=
  (Nat.ble 0x30 c.toNat && Nat.ble c.toNat 0x39) ||
  (Nat.ble 0xFF10 c.toNat && Nat.ble c.toNat 0xFF19)

/-- Left part of Python `str.strip`. -/
def pyLStrip (t : List Char) : List Char := t.dropWhile isPySpace

/-- Right part of Python `str.strip`. -/
def pyRStrip (t : List Char) : List Char := (t.reverse.dropWhile isPySpace).reverse

/-- Python `str.strip`: drop leading and trailing whitespace. -/
def pyStrip (t : List Char) : List Char := pyRStrip (pyLStrip t)

/-- Line-boundary characters of Python `str.splitlines`. -/
def isLB (c : Char) : Bool :=
  let n := c.toNat
  n == 0x0A || n == 0x0B || n == 0x0C || n == 0x0D || n == 0x1C ||
  n == 0x1D || n == 0x1E || n == 0x85 || n == 0x2028 || n == 0x2029

/-- Worker for `pySplitlines`; `acc` holds the reversed current line.  A
`\r` immediately followed by `\n` counts as a single boundary; any other
line-boundary character ends the current line by itself. -/
def splitlinesGo : List Char → List Char → List (List Char)
  | [], acc => if acc.isEmpty then [] else [acc.reverse]
  | c :: rest, acc =>
      if c = '\r' then
        match rest with
        | d :: rest' =>
            if d = '\n' then acc.reverse :: splitlinesGo rest' []
            else acc.reverse :: splitlinesGo (d :: rest') []
        | [] => [acc.reverse]
      else if isLB c then acc.reverse :: splitlinesGo rest []
      else splitlinesGo rest (c :: acc)

/-- Python `str.splitlines()`: split at line boundaries (with `\r\n` as a
single boundary), no trailing empty line for a trailing boundary, and
`[]` for the empty string. -/
def pySplitlines (t : List Char) : List (List Char) := splitlinesGo t []

/-- Python `"\n".join`. -/
def joinLines : List (List Char) → List Char
  | [] => []
  | [l] => l
  | l :: ls => l ++ '\n' :: joinLines ls

/-- `Nat.ble`-based interval test on the code point. -/
def between (lo hi : Nat) (c : Char) : Bool :=
  Nat.ble lo c.toNat && Nat.ble c.toNat hi

/-- The character class `[aAａ-ｅa-eA-E１-５1-5①-⑤]` of `CHOICE_RE` and
`CORRECT_RE` (without `re.IGNORECASE`). -/
def choiceEnum (c : Char) : Bool :=
  c == 'a' || c == 'A' ||
  between 0xFF41 0xFF45 c ||
  between 0x61 0x65 c ||
  between 0x41 0x45 c ||
  between 0xFF11 0xFF15 c ||
  between 0x31 0x35 c ||
  between 0x2460 0x2464 c

/-- The same class under `re.IGNORECASE` (`CORRECT_RE`): Python's casefolded
matching additionally lets the full-width capitals `Ａ`-`Ｅ` match the range
`ａ-ｅ`; the half-width ranges `a-e` and `A-E` already cover each other, and
digits and circled numerals have no case. -/
def choiceEnumCI (c : Char) : Bool :=
  choiceEnum c || between 0xFF21 0xFF25 c

/-- `CHOICE_RE.match`: regex `^\*\s*[aAａ-ｅa-eA-E１-５1-5①-⑤]\s`. -/
def choiceMatch (t : List Char) : Bool :=
  match t with
  | '*' :: r =>
      match r.dropWhile isPySpace with
      | c :: d :: _ => choiceEnum c && isPySpace d
      | _ => false
  | _ => false

/-- The `[:：]?` part shared by `CORRECT_RE` and two noise patterns. -/
def correctTail : List Char → List Char
  | ':' :: r => r
  | '：' :: r => r
  | r => r

/-- `CORRECT_RE.match(...).group(1)`: regex
`^正解[:：]?\s*([aAａ-ｅa-eA-E１-５1-5①-⑤])` with `re.IGNORECASE`;
returns the captured enumerator character. -/
def correctMatch (t : List Char) : Option Char :=
  match t with
  | '正' :: '解' :: r =>
      match (correctTail r).dropWhile isPySpace with
      | c :: _ => if choiceEnumCI c then some c else none
      | [] => none
  | _ => none

/-- `to_half`: shift a full-width Latin letter down by `0xFEE0`, otherwise
return the character unchanged. -/
def to_half (c : Char) : Char :=
  if between 0xFF41 0xFF5A c || between 0xFF21 0xFF3A c then
    Char.ofNat (c.toNat - 0xFEE0)
  else c

/-- Python `str.upper()` on one character, for the characters `CORRECT_RE`
can capture (Latin letters of either width, digits, circled numerals):
lower-case letters shift down by `0x20`, everything else is caseless and
unchanged. -/
def pyUpperChar (c : Char) : Char :=
  if between 0x61 0x7A c || between 0xFF41 0xFF5A c then
    Char.ofNat (c.toNat - 0x20)
  else c

/-- `re.sub(r"^\*\s*", "", line)`. -/
def stripStar (t : List Char) : List Char :=
  match t with
  | '*' :: r => r.dropWhile isPySpace
  | _ => t

/-- Noise pattern `^\d{4}\s+\d+-\d+`. -/
def noiseExamNo (t : List Char) : Bool :=
  match t with
  | a :: b :: c :: d :: rest =>
      isPyDigit a && isPyDigit b && isPyDigit c && isPyDigit d &&
      !(rest.takeWhile isPySpace).isEmpty &&
      (let r1 := rest.dropWhile isPySpace
       !(r1.takeWhile isPyDigit).isEmpty &&
       match r1.dropWhile isPyDigit with
       | '-' :: r3 => !(r3.takeWhile isPyDigit).isEmpty
       | _ => false)
  | _ => false

/-- Noise pattern `^\d+-\d+$`. -/
def noiseRange (t : List Char) : Bool :=
  !(t.takeWhile isPyDigit).isEmpty &&
  match t.dropWhile isPyDigit with
  | '-' :: r2 =>
      !(r2.takeWhile isPyDigit).isEmpty && (r2.dropWhile isPyDigit).isEmpty
  | _ => false

/-- Noise pattern `^ID\s*:`. -/
def noiseID (t : List Char) : Bool :=
  match t with
  | 'I' :: 'D' :: r =>
      match r.dropWhile isPySpace with
      | ':' :: _ => true
      | _ => false
  | _ => false

/-- Noise pattern `^解答[:：]?\s*$`. -/
def noiseAnswerLabel (t : List Char) : Bool :=
  match t with
  | '解' :: '答' :: r => (correctTail r).all isPySpace
  | _ => false

/-- Noise pattern `^結果[:：]?\s*$`. -/
def noiseResultLabel (t : List Char) : Bool :=
  match t with
  | '結' :: '果' :: r => (correctTail r).all isPySpace
  | _ => false

/-- The `\d{1,2}/` step of the date noise pattern, greedily preferring two
digits. Returns the remainder after the slash. -/
def noiseD12Slash (t : List Char) : Option (List Char) :=
  match t with
  | a :: b :: c :: r =>
      if isPyDigit a && isPyDigit b && c == '/' then some r
      else if isPyDigit a && b == '/' then some (c :: r)
      else none
  | [a, b] => if isPyDigit a && b == '/' then some [] else none
  | _ => none

/-- Noise pattern `^\d{4}/\d{1,2}/\d{1,2}`. -/
def noiseDate (t : List Char) : Bool :=
  match t with
  | a :: b :: c :: d :: '/' :: rest =>
      isPyDigit a && isPyDigit b && isPyDigit c && isPyDigit d &&
      (match noiseD12Slash rest with
       | some r2 =>
           match r2 with
           | x :: _ => isPyDigit x
           | [] => false
       | none => false)
  | _ => false

/-- Noise pattern `^\*\s*$`. -/
def noiseStarOnly (t : List Char) : Bool :=
  match t with
  | '*' :: r => r.all isPySpace
  | _ => false

/-- Noise pattern `.*[○◯]\s*正解`: a circle mark reachable without crossing
a newline (`.` does not match `\n`), then optional whitespace, then 正解. -/
def noiseCircleCorrect (t : List Char) : Bool :=
  match t with
  | [] => false
  | c :: rest =>
      ((c == '○' || c == '◯') &&
        ['正', '解'].isPrefixOf (rest.dropWhile isPySpace)) ||
      (!(c == '\n') && noiseCircleCorrect rest)

/-- Noise pattern `^[×x]\s*不正解`. -/
def noiseCross (t : List Char) : Bool :=
  match t with
  | c :: rest =>
      (c == '×' || c == 'x') &&
      ['不', '正', '解'].isPrefixOf (rest.dropWhile isPySpace)
  | [] => false

/-- `is_noise`: any of the sixteen `NOISE_PATTERNS` matches the stripped
line (each compiled pattern is applied with `.match`, i.e. anchored at the
start). -/
def is_noise (line : List Char) : Bool :=
  let t := pyStrip line
  noiseExamNo t ||
  t == "基準値".data ||
  noiseRange t ||
  t == "リトライ".data ||
  "[掲載頁".data.isPrefixOf t ||
  noiseID t ||
  noiseAnswerLabel t ||
  noiseResultLabel t ||
  "履歴".data.isPrefixOf t ||
  "自分が登録".data.isPrefixOf t ||
  noiseDate t ||
  noiseStarOnly t ||
  noiseCircleCorrect t ||
  noiseCross t ||
  t == "ガイドライン".data ||
  "基本事項など".data.isPrefixOf t

/-- The `\s*$` part of `re.search(r"^解説\s*$", text, re.MULTILINE)` with
Python's greedy backtracking: consume whitespace (which includes `\n`) as
far as possible and stop at the rightmost position where `$` holds, i.e.
before a `\n` or at the end of the input.  Returns the remaining text after
`match.end()`. -/
def greedyEnd : List Char → Option (List Char)
  | [] => some []
  | c :: cs =>
      if isPySpace c then
        match greedyEnd cs with
        | some r => some r
        | none => if c == '\n' then some (c :: cs) else none
      else none

/-- Attempt the explanation-marker match at the current position (which the
caller guarantees to be a line start): the literal 解説 followed by
`\s*$`. -/
def tryHere : List Char → Option (List Char)
  | '解' :: '説' :: rest => greedyEnd rest
  | _ => none

/-- Left-to-right scan of `re.search(r"^解説\s*$", text, re.MULTILINE)`:
attempt the match at every line start (position 0 or right after `\n`);
`acc` is the reversed text before the current position.  On success return
`(text[:match.start()], text[match.end():])`. -/
def findExplainGo : List Char → List Char → Bool → Option (List Char × List Char)
  | [], _, _ => none
  | c :: rest, acc, atStart =>
      if atStart then
        match tryHere (c :: rest) with
        | some after => some (acc.reverse, after)
        | none => findExplainGo rest (c :: acc) (c == '\n')
      else findExplainGo rest (c :: acc) (c == '\n')

/-- `re.search(r"^解説\s*$", text, re.MULTILINE)`, as the pair
`(text[:match.start()], text[match.end():])` when a match exists. -/
def findExplain (text : List Char) : Option (List Char × List Char) :=
  findExplainGo text [] true

/-- Keep an explanation line: Python `l.strip() and not is_noise(l)`. -/
def explKeep (l : List Char) : Bool :=
  !(pyStrip l).isEmpty && !(is_noise l)

/-- The record returned by `parse_qb`. -/
structure ParsedQuestion where
  question : List Char
  choices : List (List Char)
  correct : List Char
  explanation : List Char
deriving DecidableEq, Repr

/-- The classification loop of `parse_qb` over the lines of the "before"
segment: strip each line, skip blank and noise lines, test `CORRECT_RE`
then `CHOICE_RE`, and otherwise accumulate the line into the question
buffer with `\n` separators. -/
def parseBeforeAux : List (List Char) → List Char → List (List Char) → List Char →
    List Char × List (List Char) × List Char
  | [], q, ch, corr => (q, ch, corr)
  | raw :: rest, q, ch, corr =>
      let line := pyStrip raw
      if line.isEmpty || is_noise line then
        parseBeforeAux rest q ch corr
      else
        match correctMatch line with
        | some g => parseBeforeAux rest q ch [pyUpperChar (to_half g)]
        | none =>
            if choiceMatch line then
              parseBeforeAux rest q (ch ++ [stripStar line]) corr
            else
              parseBeforeAux rest (if q.isEmpty then line else q ++ '\n' :: line) ch corr

/-- `parse_qb`: split off the explanation at the `^解説\s*$` marker, filter
and join the explanation lines, classify the lines of the "before" segment,
and return the four fields. -/
def parse_qb (text : List Char) : ParsedQuestion :=
  match findExplain text with
  | some ba =>
      let res := parseBeforeAux (pySplitlines ba.1) [] [] []
      ⟨pyStrip res.1, res.2.1, res.2.2,
        pyStrip (joinLines ((pySplitlines ba.2).filter explKeep))⟩
  | none =>
      let res := parseBeforeAux (pySplitlines text) [] [] []
      ⟨pyStrip res.1, res.2.1, res.2.2, []⟩

/-- The "before" segment of the input: everything preceding the explanation
marker, or the whole input when there is no marker. -/
def beforeText (text : List Char) : List Char :=
  match findExplain text with
  | some ba => ba.1
  | none => text

/-- The "after" segment of the input: everything following the explanation
marker match, or empty when there is no marker. -/
def afterText (text : List Char) : List Char :=
  match findExplain text with
  | some ba => ba.2
  | none => []

/-- Newline-delimited lines of a string, the line structure seen by the
`re.MULTILINE` anchors `^` and `$` (which recognise only `\n`). -/
def linesNL (t : List Char) : List (List Char) := t.splitOn '\n'

/-- Spec-side predicate, following the specification's words: a line that
consists of the literal marker word 解説 (at the very start of the line)
followed only by whitespace. -/
def isMarkerLine (l : List Char) : Bool :=
  match l with
  | '解' :: '説' :: w => w.all isPySpace
  | _ => false

/-- The text of the current line: everything up to the next `\n`. -/
def lineHead (t : List Char) : List Char := t.takeWhile (fun c => !(c == '\n'))

/-- A line that survives the classification into the question buffer:
stripped, non-blank, newline-free, and matching none of the noise, correct
or choice patterns. -/
def goodQ (l : List Char) : Prop :=
  pyStrip l = l ∧ l ≠ [] ∧ '\n' ∉ l ∧
  is_noise l = false ∧ correctMatch l = none ∧ choiceMatch l = false

/-- A raw "before" line that the loop appends to `choices`: non-blank and
non-noise after stripping, not a correct-answer line, and matching
`CHOICE_RE`. -/
def goodChoice (raw : List Char) : Bool :=
  let l := pyStrip raw
  !l.isEmpty && !(is_noise l) && (correctMatch l).isNone && choiceMatch l

/-- The characters that can actually be stored in `correct`: half-width
upper-case `A`-`E`, half-width digits `1`-`5`, full-width digits `１`-`５`,
or circled numerals `①`-`⑤`. -/
def normCorrect (c : Char) : Bool :=
  between 0x41 0x45 c || between 0x31 0x35 c ||
  between 0xFF11 0xFF15 c || between 0x2460 0x2464 c

/-- A half-width (ASCII-range) character. -/
def isHalfWidth (c : Char) : Bool := Nat.blt c.toNat 0x80

/-! ### Lemmas about stripping -/

lemma pyLStrip_eq_self {t : List Char}
    (h : ∀ c, t.head? = some c → isPySpace c = false) : pyLStrip t = t := by
  cases t with
  | nil => rfl
  | cons c r => exact List.dropWhile_cons_of_neg (by simp [h c rfl])

lemma pyRStrip_eq_self {t : List Char}
    (h : ∀ c, t.getLast? = some c → isPySpace c = false) : pyRStrip t = t := by
  unfold pyRStrip
  have hrev : t.reverse.dropWhile isPySpace = t.reverse := by
    cases hr : t.reverse with
    | nil => rfl
    | cons c r =>
        refine List.dropWhile_cons_of_neg ?_
        have hcl : t.getLast? = some c := by
          rw [← List.head?_reverse, hr]; rfl
        simp [h c hcl]
  rw [hrev, List.reverse_reverse]

lemma pyStrip_eq_self {t : List Char}
    (h1 : ∀ c, t.head? = some c → isPySpace c = false)
    (h2 : ∀ c, t.getLast? = some c → isPySpace c = false) : pyStrip t = t := by
  unfold pyStrip
  rw [pyLStrip_eq_self h1, pyRStrip_eq_self h2]

lemma head?_dropWhile_false {p : Char → Bool} {t : List Char} {c : Char}
    (h : (t.dropWhile p).head? = some c) : p c = false := by
  have h0 := List.head?_dropWhile_not p t
  rw [h] at h0
  exact h0

lemma pyRStrip_append_spec (x : List Char) :
    x = pyRStrip x ++ (x.reverse.takeWhile isPySpace).reverse ∧
      ∀ c ∈ (x.reverse.takeWhile isPySpace).reverse, isPySpace c = true := by
  constructor
  · conv_lhs => rw [← List.reverse_reverse x,
      ← List.takeWhile_append_dropWhile isPySpace x.reverse]
    rw [List.reverse_append]
    rfl
  · intro c hc
    rw [List.mem_reverse] at hc
    exact List.mem_takeWhile_imp hc

lemma head?_pyStrip {t : List Char} {c : Char}
    (h : (pyStrip t).head? = some c) : isPySpace c = false := by
  unfold pyStrip at h
  have hspec := (pyRStrip_append_spec (pyLStrip t)).1
  have hh : (pyLStrip t).head? = some c := by
    rw [hspec, List.head?_append, h]; rfl
  exact head?_dropWhile_false hh

lemma getLast?_pyStrip {t : List Char} {c : Char}
    (h : (pyStrip t).getLast? = some c) : isPySpace c = false := by
  unfold pyStrip pyRStrip at h
  rw [List.getLast?_reverse] at h
  exact head?_dropWhile_false h

lemma pyStrip_idem (t : List Char) : pyStrip (pyStrip t) = pyStrip t :=
  pyStrip_eq_self (fun _ h => head?_pyStrip h) (fun _ h => getLast?_pyStrip h)

lemma mem_pyStrip {t : List Char} {c : Char} (h : c ∈ pyStrip t) : c ∈ t := by
  have h1 : c ∈ pyLStrip t := by
    unfold pyStrip pyRStrip at h
    rw [List.mem_reverse] at h
    have := (List.dropWhile_sublist isPySpace (l := (pyLStrip t).reverse)).subset h
    rwa [List.mem_reverse] at this
  exact (List.dropWhile_sublist isPySpace (l := t)).subset h1

lemma pyStrip_nil : pyStrip [] = [] := rfl

lemma head?_of_strip_eq_self {t : List Char} (h : pyStrip t = t) :
    ∀ c, t.head? = some c → isPySpace c = false := by
  intro c hc
  exact head?_pyStrip (t := t) (by rw [h]; exact hc)

lemma getLast?_of_strip_eq_self {t : List Char} (h : pyStrip t = t) :
    ∀ c, t.getLast? = some c → isPySpace c = false := by
  intro c hc
  exact getLast?_pyStrip (t := t) (by rw [h]; exact hc)

lemma pyStrip_eq_nil_of_all_space {t : List Char}
    (h : ∀ c ∈ t, isPySpace c = true) : pyStrip t = [] := by
  have h1 : pyLStrip t = [] := by
    unfold pyLStrip
    rw [List.dropWhile_eq_nil_iff]
    intro x hx
    simp [h x hx]
  unfold pyStrip
  rw [h1]
  rfl

/-! ### Normalization of the stored `correct` character -/

lemma between_iff {lo hi : Nat} {c : Char} :
    between lo hi c = true ↔ lo ≤ c.toNat ∧ c.toNat ≤ hi := by
  simp [between, Nat.ble_eq, Bool.and_eq_true]

lemma between_eq_true {lo hi : Nat} {c : Char} (h1 : lo ≤ c.toNat)
    (h2 : c.toNat ≤ hi) : between lo hi c = true :=
  between_iff.mpr ⟨h1, h2⟩

lemma between_eq_false {lo hi : Nat} {c : Char}
    (h : c.toNat < lo ∨ hi < c.toNat) : between lo hi c = false := by
  cases hb : between lo hi c
  · rfl
  · rcases between_iff.mp hb with ⟨h1, h2⟩
    omega

lemma toNat_ofNat_valid {n : Nat} (h : n < 0xD800) : (Char.ofNat n).toNat = n := by
  unfold Char.ofNat
  rw [dif_pos (Or.inl h)]
  rfl

lemma correctMatch_enum {l : List Char} {g : Char}
    (h : correctMatch l = some g) : choiceEnumCI g = true := by
  unfold correctMatch at h
  split at h
  · split at h
    · split at h
      · injection h with h
        subst h
        assumption
      · cases h
    · cases h
  · cases h

lemma charNorm {g : Char} (hg : choiceEnumCI g = true) :
    normCorrect (pyUpperChar (to_half g)) = true := by
  have hsplit :
      g = 'a' ∨ g = 'A' ∨
      (0xFF41 ≤ g.toNat ∧ g.toNat ≤ 0xFF45) ∨
      (0x61 ≤ g.toNat ∧ g.toNat ≤ 0x65) ∨
      (0x41 ≤ g.toNat ∧ g.toNat ≤ 0x45) ∨
      (0xFF11 ≤ g.toNat ∧ g.toNat ≤ 0xFF15) ∨
      (0x31 ≤ g.toNat ∧ g.toNat ≤ 0x35) ∨
      (0x2460 ≤ g.toNat ∧ g.toNat ≤ 0x2464) ∨
      (0xFF21 ≤ g.toNat ∧ g.toNat ≤ 0xFF25) := by
    unfold choiceEnumCI choiceEnum at hg
    simp only [Bool.or_eq_true, beq_iff_eq, between_iff] at hg
    tauto
  rcases hsplit with h | h | h | h | h | h | h | h | h
  · subst h; decide
  · subst h; decide
  · -- full-width lower-case letter
    have h1 : to_half g = Char.ofNat (g.toNat - 0xFEE0) := by
      unfold to_half
      rw [if_pos]
      rw [Bool.or_eq_true]
      exact Or.inl (between_eq_true (by omega) (by omega))
    have h2 : (to_half g).toNat = g.toNat - 0xFEE0 := by
      rw [h1, toNat_ofNat_valid (by omega)]
    have h3 : pyUpperChar (to_half g) = Char.ofNat ((to_half g).toNat - 0x20) := by
      unfold pyUpperChar
      rw [if_pos]
      rw [Bool.or_eq_true]
      exact Or.inl (between_eq_true (by omega) (by omega))
    have h4 : (pyUpperChar (to_half g)).toNat = g.toNat - 0xFEE0 - 0x20 := by
      rw [h3, toNat_ofNat_valid (by omega), h2]
    unfold normCorrect
    rw [Bool.or_eq_true, Bool.or_eq_true, Bool.or_eq_true]
    exact Or.inl (Or.inl (Or.inl (between_eq_true (by omega) (by omega))))
  · -- half-width lower-case letter
    have h1 : to_half g = g := by
      unfold to_half
      rw [if_neg]
      rw [Bool.or_eq_true]
      push_neg
      constructor
      · simp [@between_eq_false 0xFF41 0xFF5A g (by omega)]
      · simp [@between_eq_false 0xFF21 0xFF3A g (by omega)]
    have h3 : pyUpperChar g = Char.ofNat (g.toNat - 0x20) := by
      unfold pyUpperChar
      rw [if_pos]
      rw [Bool.or_eq_true]
      exact Or.inl (between_eq_true (by omega) (by omega))
    have h4 : (pyUpperChar (to_half g)).toNat = g.toNat - 0x20 := by
      rw [h1, h3, toNat_ofNat_valid (by omega)]
    unfold normCorrect
    rw [Bool.or_eq_true, Bool.or_eq_true, Bool.or_eq_true]
    exact Or.inl (Or.inl (Or.inl (between_eq_true (by omega) (by omega))))
  · -- half-width upper-case letter
    have h1 : to_half g = g := by
      unfold to_half
      rw [if_neg]
      rw [Bool.or_eq_true]
      push_neg
      constructor
      · simp [@between_eq_false 0xFF41 0xFF5A g (by omega)]
      · simp [@between_eq_false 0xFF21 0xFF3A g (by omega)]
    have h3 : pyUpperChar g = g := by
      unfold pyUpperChar
      rw [if_neg]
      rw [Bool.or_eq_true]
      push_neg
      constructor
      · simp [@between_eq_false 0x61 0x7A g (by omega)]
      · simp [@between_eq_false 0xFF41 0xFF5A g (by omega)]
    rw [h1, h3]
    unfold normCorrect
    rw [Bool.or_eq_true, Bool.or_eq_true, Bool.or_eq_true]
    exact Or.inl (Or.inl (Or.inl (between_eq_true (by omega) (by omega))))
  · -- full-width digit
    have h1 : to_half g = g := by
      unfold to_half
      rw [if_neg]
      rw [Bool.or_eq_true]
      push_neg
      constructor
      · simp [@between_eq_false 0xFF41 0xFF5A g (by omega)]
      · simp [@between_eq_false 0xFF21 0xFF3A g (by omega)]
    have h3 : pyUpperChar g = g := by
      unfold pyUpperChar
      rw [if_neg]
      rw [Bool.or_eq_true]
      push_neg
      constructor
      · simp [@between_eq_false 0x61 0x7A g (by omega)]
      · simp [@between_eq_false 0xFF41 0xFF5A g (by omega)]
    rw [h1, h3]
    unfold normCorrect
    rw [Bool.or_eq_true, Bool.or_eq_true, Bool.or_eq_true]
    exact Or.inl (Or.inr (between_eq_true (by omega) (by omega)))
  · -- half-width digit
    have h1 : to_half g = g := by
      unfold to_half
      rw [if_neg]
      rw [Bool.or_eq_true]
      push_neg
      constructor
      · simp [@between_eq_false 0xFF41 0xFF5A g (by omega)]
      · simp [@between_eq_false 0xFF21 0xFF3A g (by omega)]
    have h3 : pyUpperChar g = g := by
      unfold pyUpperChar
      rw [if_neg]
      rw [Bool.or_eq_true]
      push_neg
      constructor
      · simp [@between_eq_false 0x61 0x7A g (by omega)]
      · simp [@between_eq_false 0xFF41 0xFF5A g (by omega)]
    rw [h1, h3]
    unfold normCorrect
    rw [Bool.or_eq_true, Bool.or_eq_true, Bool.or_eq_true]
    exact Or.inl (Or.inl (Or.inr (between_eq_true (by omega) (by omega))))
  · -- circled numeral
    have h1 : to_half g = g := by
      unfold to_half
      rw [if_neg]
      rw [Bool.or_eq_true]
      push_neg
      constructor
      · simp [@between_eq_false 0xFF41 0xFF5A g (by omega)]
      · simp [@between_eq_false 0xFF21 0xFF3A g (by omega)]
    have h3 : pyUpperChar g = g := by
      unfold pyUpperChar
      rw [if_neg]
      rw [Bool.or_eq_true]
      push_neg
      constructor
      · simp [@between_eq_false 0x61 0x7A g (by omega)]
      · simp [@between_eq_false 0xFF41 0xFF5A g (by omega)]
    rw [h1, h3]
    unfold normCorrect
    rw [Bool.or_eq_true, Bool.or_eq_true, Bool.or_eq_true]
    exact Or.inr (between_eq_true (by omega) (by omega))
  · -- full-width upper-case letter (IGNORECASE only)
    have h1 : to_half g = Char.ofNat (g.toNat - 0xFEE0) := by
      unfold to_half
      rw [if_pos]
      rw [Bool.or_eq_true]
      exact Or.inr (between_eq_true (by omega) (by omega))
    have h2 : (to_half g).toNat = g.toNat - 0xFEE0 := by
      rw [h1, toNat_ofNat_valid (by omega)]
    have h3 : pyUpperChar (to_half g) = to_half g := by
      unfold pyUpperChar
      rw [if_neg]
      rw [Bool.or_eq_true]
      push_neg
      constructor
      · simp [@between_eq_false 0x61 0x7A (to_half g) (by omega)]
      · simp [@between_eq_false 0xFF41 0xFF5A (to_half g) (by omega)]
    rw [h3]
    unfold normCorrect
    rw [Bool.or_eq_true, Bool.or_eq_true, Bool.or_eq_true]
    exact Or.inl (Or.inl (Or.inl (between_eq_true (by omega) (by omega))))

/-! ### Newline-delimited lines -/

lemma linesNL_nil : linesNL [] = [[]] := rfl

lemma linesNL_ne_nil (t : List Char) : linesNL t ≠ [] :=
  List.splitOnP_ne_nil _ t

lemma linesNL_cons_nl (r : List Char) : linesNL ('\n' :: r) = [] :: linesNL r := by
  simp [linesNL, List.splitOn, List.splitOnP_cons]

lemma linesNL_cons_ne {c : Char} (h : c ≠ '\n') (r : List Char) :
    linesNL (c :: r) = (linesNL r).modifyHead (c :: ·) := by
  simp [linesNL, List.splitOn, List.splitOnP_cons, h]

lemma linesNL_single {l : List Char} (h : '\n' ∉ l) : linesNL l = [l] := by
  unfold linesNL List.splitOn
  refine List.splitOnP_eq_single _ _ ?_
  intro x hx
  simp only [beq_iff_eq]
  intro he
  exact h (he ▸ hx)

lemma linesNL_append_nl (a b : List Char) :
    linesNL (a ++ '\n' :: b) = linesNL a ++ linesNL b := by
  induction a with
  | nil => rw [List.nil_append, linesNL_cons_nl, linesNL_nil]; rfl
  | cons c a' ih =>
      by_cases hc : c = '\n'
      · subst hc
        rw [List.cons_append, linesNL_cons_nl, linesNL_cons_nl, ih]
        rfl
      · rw [List.cons_append, linesNL_cons_ne hc, linesNL_cons_ne hc, ih]
        obtain ⟨l0, ls0, h0⟩ := List.exists_cons_of_ne_nil (linesNL_ne_nil a')
        rw [h0]
        rfl

lemma lineHead_linesNL (t : List Char) : ∃ ls, linesNL t = lineHead t :: ls := by
  induction t with
  | nil => exact ⟨[], rfl⟩
  | cons c r ih =>
      by_cases hc : c = '\n'
      · subst hc
        refine ⟨linesNL r, ?_⟩
        rw [linesNL_cons_nl]
        rfl
      · obtain ⟨ls, hls⟩ := ih
        refine ⟨ls, ?_⟩
        rw [linesNL_cons_ne hc, hls]
        have : lineHead (c :: r) = c :: lineHead r := by
          unfold lineHead
          rw [List.takeWhile_cons_of_pos (by simp [hc])]
        rw [this]
        rfl

/-! ### The classification loop -/

lemma parseBeforeAux_cons (raw : List Char) (rest : List (List Char))
    (q : List Char) (ch : List (List Char)) (corr : List Char) :
    parseBeforeAux (raw :: rest) q ch corr =
      if (pyStrip raw).isEmpty || is_noise (pyStrip raw) then
        parseBeforeAux rest q ch corr
      else
        match correctMatch (pyStrip raw) with
        | some g => parseBeforeAux rest q ch [pyUpperChar (to_half g)]
        | none =>
            if choiceMatch (pyStrip raw) then
              parseBeforeAux rest q (ch ++ [stripStar (pyStrip raw)]) corr
            else
              parseBeforeAux rest
                (if q.isEmpty then pyStrip raw else q ++ '\n' :: pyStrip raw) ch corr := rfl

lemma parseBeforeAux_choices (ls : List (List Char)) :
    ∀ q ch corr, (parseBeforeAux ls q ch corr).2.1 =
      ch ++ (ls.filter goodChoice).map (fun raw => stripStar (pyStrip raw)) := by
  induction ls with
  | nil => intro q ch corr; simp [parseBeforeAux]
  | cons raw rest ih =>
      intro q ch corr
      rw [parseBeforeAux_cons]
      by_cases h1 : ((pyStrip raw).isEmpty || is_noise (pyStrip raw)) = true
      · rw [if_pos h1, ih]
        have hg : goodChoice raw = false := by
          unfold goodChoice
          rcases Bool.or_eq_true _ _ |>.mp h1 with h | h <;> simp [h]
        simp [List.filter_cons, hg]
      · rw [if_neg h1]
        rw [Bool.or_eq_true] at h1
        push_neg at h1
        obtain ⟨he, hn⟩ := h1
        cases hc : correctMatch (pyStrip raw) with
        | some g =>
            rw [ih]
            have hg : goodChoice raw = false := by
              unfold goodChoice
              simp [hc]
            simp [List.filter_cons, hg]
        | none =>
            by_cases h2 : choiceMatch (pyStrip raw) = true
            · rw [if_pos h2, ih]
              have hg : goodChoice raw = true := by
                unfold goodChoice
                simp [hc, h2, Bool.eq_false_iff.mpr he, Bool.eq_false_iff.mpr hn]
              simp [List.filter_cons, hg]
            · rw [if_neg h2, ih]
              have hg : goodChoice raw = false := by
                unfold goodChoice
                simp [Bool.eq_false_iff.mpr h2]
              simp [List.filter_cons, hg]

lemma parseBeforeAux_correct (ls : List (List Char)) :
    ∀ q ch corr, (corr = [] ∨ ∃ c, corr = [c] ∧ normCorrect c = true) →
      ((parseBeforeAux ls q ch corr).2.2 = [] ∨
        ∃ c, (parseBeforeAux ls q ch corr).2.2 = [c] ∧ normCorrect c = true) := by
  induction ls with
  | nil => intro q ch corr h; exact h
  | cons raw rest ih =>
      intro q ch corr h
      rw [parseBeforeAux_cons]
      by_cases h1 : ((pyStrip raw).isEmpty || is_noise (pyStrip raw)) = true
      · rw [if_pos h1]; exact ih _ _ _ h
      · rw [if_neg h1]
        cases hc : correctMatch (pyStrip raw) with
        | some g =>
            refine ih _ _ _ (Or.inr ⟨pyUpperChar (to_half g), rfl, ?_⟩)
            exact charNorm (correctMatch_enum hc)
        | none =>
            by_cases h2 : choiceMatch (pyStrip raw) = true
            · rw [if_pos h2]; exact ih _ _ _ h
            · rw [if_neg h2]; exact ih _ _ _ h

lemma pyStrip_append_line {q line : List Char} (hq : pyStrip q = q) (hqne : q ≠ [])
    (hl : pyStrip line = line) (hlne : line ≠ []) :
    pyStrip (q ++ '\n' :: line) = q ++ '\n' :: line := by
  apply pyStrip_eq_self
  · intro c hc
    rw [List.head?_append] at hc
    cases hq0 : q.head? with
    | none => exact absurd (List.head?_eq_none_iff.mp hq0) hqne
    | some d =>
        rw [hq0] at hc
        simp only [Option.or_some] at hc
        injection hc with hc
        subst hc
        exact head?_of_strip_eq_self hq d hq0
  · intro c hc
    rw [List.getLast?_append] at hc
    have hsome : ∃ e, line.getLast? = some e := by
      cases h0 : line.getLast? with
      | none => exact absurd (List.getLast?_eq_none_iff.mp h0) hlne
      | some e => exact ⟨e, rfl⟩
    obtain ⟨e, he⟩ := hsome
    have h2 : ('\n' :: line).getLast? = some e := by
      show (['\n'] ++ line).getLast? = some e
      rw [List.getLast?_append, he]
      rfl
    rw [h2] at hc
    simp only [Option.or_some] at hc
    injection hc with hc
    exact hc ▸ getLast?_of_strip_eq_self hl e he

lemma parseBeforeAux_question (ls : List (List Char)) :
    ∀ q ch corr, (∀ raw ∈ ls, '\n' ∉ raw) →
      (q = [] ∨ (pyStrip q = q ∧ ∀ l ∈ linesNL q, goodQ l)) →
      ((parseBeforeAux ls q ch corr).1 = [] ∨
        (pyStrip (parseBeforeAux ls q ch corr).1 = (parseBeforeAux ls q ch corr).1 ∧
         ∀ l ∈ linesNL (parseBeforeAux ls q ch corr).1, goodQ l)) := by
  induction ls with
  | nil => intro q ch corr _ h; exact h
  | cons raw rest ih =>
      intro q ch corr hnl h
      have hnl' : ∀ r ∈ rest, '\n' ∉ r := fun r hr => hnl r (List.mem_cons_of_mem _ hr)
      rw [parseBeforeAux_cons]
      by_cases h1 : ((pyStrip raw).isEmpty || is_noise (pyStrip raw)) = true
      · rw [if_pos h1]; exact ih _ _ _ hnl' h
      · rw [if_neg h1]
        rw [Bool.or_eq_true] at h1
        push_neg at h1
        obtain ⟨he, hn⟩ := h1
        cases hc : correctMatch (pyStrip raw) with
        | some g => exact ih _ _ _ hnl' h
        | none =>
            by_cases h2 : choiceMatch (pyStrip raw) = true
            · rw [if_pos h2]; exact ih _ _ _ hnl' h
            · rw [if_neg h2]
              have hlg : goodQ (pyStrip raw) := by
                refine ⟨pyStrip_idem raw, ?_, ?_, ?_, hc, ?_⟩
                · intro h0
                  exact he (by rw [h0]; rfl)
                · intro hmem
                  exact hnl raw (List.mem_cons_self _ _) (mem_pyStrip hmem)
                · exact Bool.eq_false_iff.mpr hn
                · exact Bool.eq_false_iff.mpr h2
              have hlne : pyStrip raw ≠ [] := fun h0 => he (by rw [h0]; rfl)
              rcases h with hq0 | ⟨hqs, hql⟩
              · subst hq0
                rw [if_pos (show (List.isEmpty ([] : List Char)) = true from rfl)]
                refine ih _ _ _ hnl' (Or.inr ⟨hlg.1, ?_⟩)
                intro l hlmem
                rw [linesNL_single hlg.2.2.1] at hlmem
                rcases List.mem_singleton.mp hlmem with rfl
                exact hlg
              · have hqne : q ≠ [] := by
                  intro h0
                  subst h0
                  have := hql [] (by rw [linesNL_nil]; exact List.mem_singleton.mpr rfl)
                  exact this.2.1 rfl
                have hq1 : ¬(q.isEmpty = true) := by
                  simp [List.isEmpty_iff, hqne]
                rw [if_neg hq1]
                refine ih _ _ _ hnl' (Or.inr ⟨pyStrip_append_line hqs hqne hlg.1 hlne, ?_⟩)
                intro l hlmem
                rw [linesNL_append_nl, linesNL_single hlg.2.2.1] at hlmem
                rcases List.mem_append.mp hlmem with hl1 | hl1
                · exact hql l hl1
                · rcases List.mem_singleton.mp hl1 with rfl
                  exact hlg

/-! ### Unfolding `parse_qb` -/

lemma parse_qb_eq (text : List Char) :
    parse_qb text =
      ⟨pyStrip (parseBeforeAux (pySplitlines (beforeText text)) [] [] []).1,
       (parseBeforeAux (pySplitlines (beforeText text)) [] [] []).2.1,
       (parseBeforeAux (pySplitlines (beforeText text)) [] [] []).2.2,
       pyStrip (joinLines ((pySplitlines (afterText text)).filter explKeep))⟩ := by
  unfold parse_qb beforeText afterText
  cases h : findExplain text with
  | some ba => rfl
  | none => rfl

/-! ### The explanation-marker search -/

lemma greedyEnd_cons (c : Char) (cs : List Char) :
    greedyEnd (c :: cs) =
      if isPySpace c then
        match greedyEnd cs with
        | some r => some r
        | none => if c == '\n' then some (c :: cs) else none
      else none := rfl

lemma greedyEnd_some_spec : ∀ {cs r : List Char}, greedyEnd cs = some r →
    ∃ u, cs = u ++ r ∧ (∀ c ∈ u, isPySpace c = true) ∧
      (r = [] ∨ ∃ r2, r = '\n' :: r2) := by
  intro cs
  induction cs with
  | nil =>
      intro r h
      injection h with h
      exact ⟨[], by simp [h.symm], by simp, Or.inl h.symm⟩
  | cons c cs' ih =>
      intro r h
      rw [greedyEnd_cons] at h
      by_cases hsp : isPySpace c = true
      · rw [if_pos hsp] at h
        cases hg : greedyEnd cs' with
        | some r0 =>
            rw [hg] at h
            injection h with h
            subst h
            obtain ⟨u, hu1, hu2, hu3⟩ := ih hg
            refine ⟨c :: u, by rw [List.cons_append, ← hu1], ?_, hu3⟩
            intro x hx
            rcases List.mem_cons.mp hx with rfl | hx
            · exact hsp
            · exact hu2 x hx
        | none =>
            rw [hg] at h
            by_cases hnl : (c == '\n') = true
            · rw [if_pos hnl] at h
              injection h with h
              subst h
              refine ⟨[], rfl, by simp, Or.inr ⟨cs', ?_⟩⟩
              rw [show c = '\n' from by simpa using hnl]
            · rw [if_neg hnl] at h
              cases h
      · rw [if_neg hsp] at h
        cases h

lemma greedyEnd_ws_newline : ∀ (w : List Char), (∀ c ∈ w, isPySpace c = true) →
    ∀ (post : List Char), ∃ r, greedyEnd (w ++ '\n' :: post) = some r := by
  intro w
  induction w with
  | nil =>
      intro _ post
      rw [List.nil_append, greedyEnd_cons, if_pos (by decide)]
      cases hg : greedyEnd post with
      | some r0 => exact ⟨r0, rfl⟩
      | none => exact ⟨'\n' :: post, by rw [if_pos (by decide)]⟩
  | cons c w' ih =>
      intro hw post
      obtain ⟨r, hr⟩ := ih (fun x hx => hw x (List.mem_cons_of_mem _ hx)) post
      refine ⟨r, ?_⟩
      rw [List.cons_append, greedyEnd_cons, if_pos (hw c (List.mem_cons_self _ _)), hr]

lemma takeWhile_append_stop {p : Char → Bool} {x : Char} (hx : p x = false)
    (u v : List Char) : (u ++ x :: v).takeWhile p = u.takeWhile p := by
  induction u with
  | nil =>
      rw [List.nil_append]
      exact List.takeWhile_cons_of_neg (by simp [hx])
  | cons c u' ih =>
      by_cases pc : p c = true
      · rw [List.cons_append, List.takeWhile_cons_of_pos pc,
          List.takeWhile_cons_of_pos pc, ih]
      · rw [List.cons_append, List.takeWhile_cons_of_neg (by simpa using pc),
          List.takeWhile_cons_of_neg (by simpa using pc)]

lemma tryHere_some_marker : ∀ {cs r : List Char}, tryHere cs = some r →
    isMarkerLine (lineHead cs) = true := by
  intro cs r h
  unfold tryHere at h
  split at h
  · rename_i rest
    obtain ⟨u, hu1, hu2, hu3⟩ := greedyEnd_some_spec h
    unfold lineHead
    rw [List.takeWhile_cons_of_pos (by decide), List.takeWhile_cons_of_pos (by decide)]
    show isMarkerLine ('解' :: '説' :: rest.takeWhile (fun c => !(c == '\n'))) = true
    show (rest.takeWhile (fun c => !(c == '\n'))).all isPySpace = true
    rcases hu3 with rfl | ⟨r2, rfl⟩
    · rw [List.append_nil] at hu1
      subst hu1
      rw [List.all_eq_true]
      intro x hx
      exact hu2 x ((List.takeWhile_sublist _).subset hx)
    · subst hu1
      rw [takeWhile_append_stop (by decide)]
      rw [List.all_eq_true]
      intro x hx
      exact hu2 x ((List.takeWhile_sublist _).subset hx)
  · cases h

lemma lineHead_append_nl (pre z : List Char) :
    lineHead (pre ++ '\n' :: z) = lineHead pre := by
  unfold lineHead
  exact takeWhile_append_stop (by decide) pre z

lemma tail_subset_of_linesNL {rest : List Char} {l : List Char}
    (hl : l ∈ (linesNL rest).tail) : l ∈ linesNL rest := by
  obtain ⟨l0, ls0, h0⟩ := List.exists_cons_of_ne_nil (linesNL_ne_nil rest)
  rw [h0] at hl ⊢
  exact List.mem_cons_of_mem _ hl

lemma scan_hyps {c : Char} {rest : List Char}
    (h2 : ∀ l ∈ (linesNL (c :: rest)).tail, isMarkerLine l = false) :
    ((c == '\n') = true → isMarkerLine (lineHead rest) = false) ∧
    (∀ l ∈ (linesNL rest).tail, isMarkerLine l = false) := by
  by_cases hc : c = '\n'
  · subst hc
    rw [linesNL_cons_nl] at h2
    constructor
    · intro _
      obtain ⟨ls, hls⟩ := lineHead_linesNL rest
      exact h2 _ (by rw [hls]; exact List.mem_cons_self _ _)
    · intro l hl
      exact h2 l (tail_subset_of_linesNL hl)
  · rw [linesNL_cons_ne hc] at h2
    obtain ⟨l0, ls0, h0⟩ := List.exists_cons_of_ne_nil (linesNL_ne_nil rest)
    rw [h0] at h2
    simp only [List.modifyHead, List.tail_cons] at h2
    constructor
    · intro hcc
      exact absurd (by simpa using hcc) hc
    · intro l hl
      rw [h0] at hl
      simp only [List.tail_cons] at hl
      exact h2 l hl

lemma findExplainGo_cons (c : Char) (rest acc : List Char) (atStart : Bool) :
    findExplainGo (c :: rest) acc atStart =
      if atStart then
        match tryHere (c :: rest) with
        | some after => some (acc.reverse, after)
        | none => findExplainGo rest (c :: acc) (c == '\n')
      else findExplainGo rest (c :: acc) (c == '\n') := rfl

lemma findExplainGo_none : ∀ (cs acc : List Char) (atStart : Bool),
    (atStart = true → isMarkerLine (lineHead cs) = false) →
    (∀ l ∈ (linesNL cs).tail, isMarkerLine l = false) →
    findExplainGo cs acc atStart = none := by
  intro cs
  induction cs with
  | nil => intro acc atStart _ _; rfl
  | cons c rest ih =>
      intro acc atStart h1 h2
      obtain ⟨h1', h2'⟩ := scan_hyps h2
      rw [findExplainGo_cons]
      cases atStart with
      | false =>
          rw [if_neg (by simp)]
          exact ih _ _ h1' h2'
      | true =>
          rw [if_pos rfl]
          have hth : tryHere (c :: rest) = none := by
            cases ht : tryHere (c :: rest) with
            | none => rfl
            | some r =>
                have := tryHere_some_marker ht
                rw [h1 rfl] at this
                cases this
          rw [hth]
          exact ih _ _ h1' h2'

lemma findExplain_none_of_noMarker {text : List Char}
    (h : ∀ l ∈ linesNL text, isMarkerLine l = false) : findExplain text = none := by
  unfold findExplain
  refine findExplainGo_none text [] true (fun _ => ?_) ?_
  · obtain ⟨ls, hls⟩ := lineHead_linesNL text
    exact h _ (by rw [hls]; exact List.mem_cons_self _ _)
  · intro l hl
    exact h l (tail_subset_of_linesNL hl)

lemma findExplainGo_marker {w post r : List Char}
    (hr : greedyEnd (w ++ '\n' :: post) = some r) :
    ∀ (pre acc : List Char) (atStart : Bool),
      (atStart = true → isMarkerLine (lineHead pre) = false) →
      (∀ l ∈ (linesNL pre).tail, isMarkerLine l = false) →
      findExplainGo (pre ++ '\n' :: '解' :: '説' :: (w ++ '\n' :: post)) acc atStart =
        some ((acc.reverse ++ pre) ++ ['\n'], r) := by
  intro pre
  induction pre with
  | nil =>
      intro acc atStart _ _
      have hstep : findExplainGo ([] ++ '\n' :: '解' :: '説' :: (w ++ '\n' :: post)) acc atStart =
          findExplainGo ('解' :: '説' :: (w ++ '\n' :: post)) ('\n' :: acc) true := by
        cases atStart <;> rfl
      rw [hstep, findExplainGo_cons, if_pos rfl]
      have ht2 : tryHere ('解' :: '説' :: (w ++ '\n' :: post)) = some r := hr
      rw [ht2]
      simp [List.reverse_cons]
  | cons c pre' ih =>
      intro acc atStart h1 h2
      obtain ⟨h1', h2'⟩ := scan_hyps h2
      rw [List.cons_append, findExplainGo_cons]
      have hrec :
          findExplainGo (pre' ++ '\n' :: '解' :: '説' :: (w ++ '\n' :: post)) (c :: acc) (c == '\n') =
            some (((c :: acc).reverse ++ pre') ++ ['\n'], r) := ih (c :: acc) (c == '\n') h1' h2'
      have hshape : (((c :: acc).reverse ++ pre') ++ ['\n'] : List Char) =
          (acc.reverse ++ c :: pre') ++ ['\n'] := by
        simp [List.reverse_cons, List.append_assoc]
      cases atStart with
      | false =>
          rw [if_neg (by simp), hrec, hshape]
      | true =>
          rw [if_pos rfl]
          have hth : tryHere (c :: (pre' ++ '\n' :: '解' :: '説' :: (w ++ '\n' :: post))) = none := by
            cases ht : tryHere (c :: (pre' ++ '\n' :: '解' :: '説' :: (w ++ '\n' :: post))) with
            | none => rfl
            | some r0 =>
                have hm := tryHere_some_marker ht
                rw [show (c :: (pre' ++ '\n' :: '解' :: '説' :: (w ++ '\n' :: post))) =
                    ((c :: pre') ++ '\n' :: '解' :: '説' :: (w ++ '\n' :: post)) from rfl,
                  lineHead_append_nl] at hm
                rw [h1 rfl] at hm
                cases hm
          rw [hth, hrec, hshape]

lemma findExplain_marker {pre w post : List Char}
    (hpre : ∀ l ∈ linesNL pre, isMarkerLine l = false)
    (hw : ∀ c ∈ w, isPySpace c = true) :
    ∃ r, findExplain (pre ++ '\n' :: '解' :: '説' :: (w ++ '\n' :: post)) =
        some (pre ++ ['\n'], r) ∧ greedyEnd (w ++ '\n' :: post) = some r := by
  obtain ⟨r, hr⟩ := greedyEnd_ws_newline w hw post
  refine ⟨r, ?_, hr⟩
  unfold findExplain
  have := findExplainGo_marker hr pre [] true
    (fun _ => by
      obtain ⟨ls, hls⟩ := lineHead_linesNL pre
      exact hpre _ (by rw [hls]; exact List.mem_cons_self _ _))
    (fun l hl => hpre l (tail_subset_of_linesNL hl))
  rw [this]
  rfl

/-! ### Lemmas about `pySplitlines` -/

lemma splitlinesGo_cons_eq (c : Char) (rest acc : List Char) :
    splitlinesGo (c :: rest) acc =
      if c = '\r' then
        (match rest with
         | d :: rest' =>
             if d = '\n' then acc.reverse :: splitlinesGo rest' []
             else acc.reverse :: splitlinesGo (d :: rest') []
         | [] => [acc.reverse])
      else if isLB c then acc.reverse :: splitlinesGo rest []
      else splitlinesGo rest (c :: acc) := by
  conv_lhs => rw [splitlinesGo.eq_def]

lemma splitlinesGo_mem (t acc : List Char) :
    ∀ l ∈ splitlinesGo t acc, ∀ c ∈ l, c ∈ acc ∨ c ∈ t := by
  induction t, acc using splitlinesGo.induct with
  | case1 acc h =>
      intro l hl c hc
      simp only [splitlinesGo, if_pos h] at hl
      cases hl
  | case2 acc h =>
      intro l hl c hc
      simp only [splitlinesGo, if_neg h] at hl
      rcases List.mem_singleton.mp hl with rfl
      exact Or.inl (List.mem_reverse.mp hc)
  | case3 acc rest' ih =>
      intro l hl c hc
      have hstep : splitlinesGo ('\r' :: '\n' :: rest') acc =
          acc.reverse :: splitlinesGo rest' [] := rfl
      rw [hstep] at hl
      rcases List.mem_cons.mp hl with rfl | hl
      · exact Or.inl (List.mem_reverse.mp hc)
      · rcases ih l hl c hc with h | h
        · cases h
        · exact Or.inr (by simp [h])
  | case4 acc d rest' hd ih =>
      intro l hl c hc
      have hstep : splitlinesGo ('\r' :: d :: rest') acc =
          acc.reverse :: splitlinesGo (d :: rest') [] := by
        rw [splitlinesGo_cons_eq, if_pos (show ('\r' : Char) = '\r' from rfl)]
        show (if d = '\n' then acc.reverse :: splitlinesGo rest' []
          else acc.reverse :: splitlinesGo (d :: rest') []) = _
        rw [if_neg hd]
      rw [hstep] at hl
      rcases List.mem_cons.mp hl with rfl | hl
      · exact Or.inl (List.mem_reverse.mp hc)
      · rcases ih l hl c hc with h | h
        · cases h
        · exact Or.inr (by simp [List.mem_cons.mp h])
  | case5 acc =>
      intro l hl c hc
      have hstep : splitlinesGo ['\r'] acc = [acc.reverse] := rfl
      rw [hstep] at hl
      rcases List.mem_singleton.mp hl with rfl
      exact Or.inl (List.mem_reverse.mp hc)
  | case6 c0 rest acc hcr hlb ih =>
      intro l hl c hc
      have hstep : splitlinesGo (c0 :: rest) acc = acc.reverse :: splitlinesGo rest [] := by
        rw [splitlinesGo_cons_eq, if_neg hcr, if_pos hlb]
      rw [hstep] at hl
      rcases List.mem_cons.mp hl with rfl | hl
      · exact Or.inl (List.mem_reverse.mp hc)
      · rcases ih l hl c hc with h | h
        · cases h
        · exact Or.inr (List.mem_cons_of_mem _ h)
  | case7 c0 rest acc hcr hlb ih =>
      intro l hl c hc
      have hstep : splitlinesGo (c0 :: rest) acc = splitlinesGo rest (c0 :: acc) := by
        rw [splitlinesGo_cons_eq, if_neg hcr, if_neg hlb]
      rw [hstep] at hl
      rcases ih l hl c hc with h | h
      · rcases List.mem_cons.mp h with rfl | h
        · exact Or.inr (List.mem_cons_self _ _)
        · exact Or.inl h
      · exact Or.inr (List.mem_cons_of_mem _ h)

lemma splitlinesGo_no_lb (t acc : List Char) :
    (∀ c ∈ acc, isLB c = false) →
    ∀ l ∈ splitlinesGo t acc, ∀ c ∈ l, isLB c = false := by
  induction t, acc using splitlinesGo.induct with
  | case1 acc h =>
      intro hacc l hl c hc
      simp only [splitlinesGo, if_pos h] at hl
      cases hl
  | case2 acc h =>
      intro hacc l hl c hc
      simp only [splitlinesGo, if_neg h] at hl
      rcases List.mem_singleton.mp hl with rfl
      exact hacc c (List.mem_reverse.mp hc)
  | case3 acc rest' ih =>
      intro hacc l hl c hc
      have hstep : splitlinesGo ('\r' :: '\n' :: rest') acc =
          acc.reverse :: splitlinesGo rest' [] := rfl
      rw [hstep] at hl
      rcases List.mem_cons.mp hl with rfl | hl
      · exact hacc c (List.mem_reverse.mp hc)
      · exact ih (by simp) l hl c hc
  | case4 acc d rest' hd ih =>
      intro hacc l hl c hc
      have hstep : splitlinesGo ('\r' :: d :: rest') acc =
          acc.reverse :: splitlinesGo (d :: rest') [] := by
        rw [splitlinesGo_cons_eq, if_pos (show ('\r' : Char) = '\r' from rfl)]
        show (if d = '\n' then acc.reverse :: splitlinesGo rest' []
          else acc.reverse :: splitlinesGo (d :: rest') []) = _
        rw [if_neg hd]
      rw [hstep] at hl
      rcases List.mem_cons.mp hl with rfl | hl
      · exact hacc c (List.mem_reverse.mp hc)
      · exact ih (by simp) l hl c hc
  | case5 acc =>
      intro hacc l hl c hc
      have hstep : splitlinesGo ['\r'] acc = [acc.reverse] := rfl
      rw [hstep] at hl
      rcases List.mem_singleton.mp hl with rfl
      exact hacc c (List.mem_reverse.mp hc)
  | case6 c0 rest acc hcr hlb ih =>
      intro hacc l hl c hc
      have hstep : splitlinesGo (c0 :: rest) acc = acc.reverse :: splitlinesGo rest [] := by
        rw [splitlinesGo_cons_eq, if_neg hcr, if_pos hlb]
      rw [hstep] at hl
      rcases List.mem_cons.mp hl with rfl | hl
      · exact hacc c (List.mem_reverse.mp hc)
      · exact ih (by simp) l hl c hc
  | case7 c0 rest acc hcr hlb ih =>
      intro hacc l hl c hc
      have hstep : splitlinesGo (c0 :: rest) acc = splitlinesGo rest (c0 :: acc) := by
        rw [splitlinesGo_cons_eq, if_neg hcr, if_neg hlb]
      rw [hstep] at hl
      refine ih ?_ l hl c hc
      intro x hx
      rcases List.mem_cons.mp hx with rfl | hx
      · exact Bool.eq_false_iff.mpr hlb
      · exact hacc x hx

lemma pySplitlines_no_nl {t l : List Char} (hl : l ∈ pySplitlines t) : '\n' ∉ l := by
  intro hmem
  have := splitlinesGo_no_lb t [] (by simp) l hl '\n' hmem
  cases this

lemma mem_pySplitlines_mem {t l : List Char} (hl : l ∈ pySplitlines t) :
    ∀ c ∈ l, c ∈ t := by
  intro c hc
  rcases splitlinesGo_mem t [] l hl c hc with h | h
  · cases h
  · exact h

lemma splitlinesGo_append_nl (x acc : List Char) :
    ∀ y, splitlinesGo (x ++ '\n' :: y) acc =
      splitlinesGo (x ++ ['\n']) acc ++ splitlinesGo y [] := by
  induction x, acc using splitlinesGo.induct with
  | case1 acc h =>
      intro y
      have ha : acc = [] := List.isEmpty_iff.mp h
      subst ha
      rw [List.nil_append, List.nil_append, splitlinesGo_cons_eq,
        if_neg (by decide), if_pos (by decide)]
      rw [show splitlinesGo ['\n'] ([] : List Char) = [[]] from by decide]
      rfl
  | case2 acc h =>
      intro y
      rw [List.nil_append, List.nil_append, splitlinesGo_cons_eq,
        if_neg (by decide), if_pos (by decide)]
      have hstep2 : splitlinesGo ['\n'] acc = [acc.reverse] := by
        rw [splitlinesGo_cons_eq, if_neg (by decide), if_pos (by decide)]
        rfl
      rw [hstep2]
      rfl
  | case3 acc rest' ih =>
      intro y
      have hstep1 : splitlinesGo (('\r' :: '\n' :: rest') ++ '\n' :: y) acc =
          acc.reverse :: splitlinesGo (rest' ++ '\n' :: y) [] := rfl
      have hstep2 : splitlinesGo (('\r' :: '\n' :: rest') ++ ['\n']) acc =
          acc.reverse :: splitlinesGo (rest' ++ ['\n']) [] := rfl
      rw [hstep1, hstep2, ih y]
      rfl
  | case4 acc d rest' hd ih =>
      intro y
      have hstep1 : splitlinesGo (('\r' :: d :: rest') ++ '\n' :: y) acc =
          acc.reverse :: splitlinesGo ((d :: rest') ++ '\n' :: y) [] := by
        show splitlinesGo ('\r' :: (d :: (rest' ++ '\n' :: y))) acc = _
        rw [splitlinesGo_cons_eq, if_pos (show ('\r' : Char) = '\r' from rfl)]
        show (if d = '\n' then acc.reverse :: splitlinesGo (rest' ++ '\n' :: y) []
          else acc.reverse :: splitlinesGo (d :: (rest' ++ '\n' :: y)) []) = _
        rw [if_neg hd]
        rfl
      have hstep2 : splitlinesGo (('\r' :: d :: rest') ++ ['\n']) acc =
          acc.reverse :: splitlinesGo ((d :: rest') ++ ['\n']) [] := by
        show splitlinesGo ('\r' :: (d :: (rest' ++ ['\n']))) acc = _
        rw [splitlinesGo_cons_eq, if_pos (show ('\r' : Char) = '\r' from rfl)]
        show (if d = '\n' then acc.reverse :: splitlinesGo (rest' ++ ['\n']) []
          else acc.reverse :: splitlinesGo (d :: (rest' ++ ['\n'])) []) = _
        rw [if_neg hd]
        rfl
      rw [hstep1, hstep2, ih y]
      rfl
  | case5 acc =>
      intro y
      have hstep1 : splitlinesGo (['\r'] ++ '\n' :: y) acc =
          acc.reverse :: splitlinesGo y [] := rfl
      have hstep2 : splitlinesGo (['\r'] ++ ['\n']) acc = [acc.reverse] := rfl
      rw [hstep1, hstep2]
      rfl
  | case6 c0 rest acc hcr hlb ih =>
      intro y
      have hstep1 : splitlinesGo ((c0 :: rest) ++ '\n' :: y) acc =
          acc.reverse :: splitlinesGo (rest ++ '\n' :: y) [] := by
        show splitlinesGo (c0 :: (rest ++ '\n' :: y)) acc = _
        rw [splitlinesGo_cons_eq, if_neg hcr, if_pos hlb]
      have hstep2 : splitlinesGo ((c0 :: rest) ++ ['\n']) acc =
          acc.reverse :: splitlinesGo (rest ++ ['\n']) [] := by
        show splitlinesGo (c0 :: (rest ++ ['\n'])) acc = _
        rw [splitlinesGo_cons_eq, if_neg hcr, if_pos hlb]
      rw [hstep1, hstep2, ih y]
      rfl
  | case7 c0 rest acc hcr hlb ih =>
      intro y
      have hstep1 : splitlinesGo ((c0 :: rest) ++ '\n' :: y) acc =
          splitlinesGo (rest ++ '\n' :: y) (c0 :: acc) := by
        show splitlinesGo (c0 :: (rest ++ '\n' :: y)) acc = _
        rw [splitlinesGo_cons_eq, if_neg hcr, if_neg hlb]
      have hstep2 : splitlinesGo ((c0 :: rest) ++ ['\n']) acc =
          splitlinesGo (rest ++ ['\n']) (c0 :: acc) := by
        show splitlinesGo (c0 :: (rest ++ ['\n'])) acc = _
        rw [splitlinesGo_cons_eq, if_neg hcr, if_neg hlb]
      rw [hstep1, hstep2, ih y]

lemma pySplitlines_split (x y : List Char) :
    pySplitlines (x ++ '\n' :: y) = pySplitlines (x ++ ['\n']) ++ pySplitlines y :=
  splitlinesGo_append_nl x [] y

lemma splitlinesGo_append_newline (x acc : List Char) :
    splitlinesGo (x ++ ['\n']) acc = splitlinesGo x acc ∨
    splitlinesGo (x ++ ['\n']) acc = splitlinesGo x acc ++ [[]] := by
  induction x, acc using splitlinesGo.induct with
  | case1 acc h =>
      have ha : acc = [] := List.isEmpty_iff.mp h
      subst ha
      exact Or.inr (by decide)
  | case2 acc h =>
      refine Or.inl ?_
      rw [List.nil_append]
      have hstep1 : splitlinesGo ['\n'] acc = [acc.reverse] := by
        rw [splitlinesGo_cons_eq, if_neg (by decide), if_pos (by decide)]
        rfl
      have hstep2 : splitlinesGo [] acc = [acc.reverse] := by
        simp only [splitlinesGo, if_neg h]
      rw [hstep1, hstep2]
  | case3 acc rest' ih =>
      have hstep1 : splitlinesGo (('\r' :: '\n' :: rest') ++ ['\n']) acc =
          acc.reverse :: splitlinesGo (rest' ++ ['\n']) [] := rfl
      have hstep2 : splitlinesGo ('\r' :: '\n' :: rest') acc =
          acc.reverse :: splitlinesGo rest' [] := rfl
      rcases ih with h | h
      · exact Or.inl (by rw [hstep1, hstep2, h])
      · exact Or.inr (by rw [hstep1, hstep2, h]; rfl)
  | case4 acc d rest' hd ih =>
      have hstep1 : splitlinesGo (('\r' :: d :: rest') ++ ['\n']) acc =
          acc.reverse :: splitlinesGo ((d :: rest') ++ ['\n']) [] := by
        show splitlinesGo ('\r' :: (d :: (rest' ++ ['\n']))) acc = _
        rw [splitlinesGo_cons_eq, if_pos (show ('\r' : Char) = '\r' from rfl)]
        show (if d = '\n' then acc.reverse :: splitlinesGo (rest' ++ ['\n']) []
          else acc.reverse :: splitlinesGo (d :: (rest' ++ ['\n'])) []) = _
        rw [if_neg hd]
        rfl
      have hstep2 : splitlinesGo ('\r' :: d :: rest') acc =
          acc.reverse :: splitlinesGo (d :: rest') [] := by
        rw [splitlinesGo_cons_eq, if_pos (show ('\r' : Char) = '\r' from rfl)]
        show (if d = '\n' then acc.reverse :: splitlinesGo rest' []
          else acc.reverse :: splitlinesGo (d :: rest') []) = _
        rw [if_neg hd]
      rcases ih with h | h
      · exact Or.inl (by rw [hstep1, hstep2, h])
      · exact Or.inr (by rw [hstep1, hstep2, h]; rfl)
  | case5 acc =>
      refine Or.inl ?_
      have hstep1 : splitlinesGo (['\r'] ++ ['\n']) acc = [acc.reverse] := rfl
      have hstep2 : splitlinesGo ['\r'] acc = [acc.reverse] := rfl
      rw [hstep1, hstep2]
  | case6 c0 rest acc hcr hlb ih =>
      have hstep1 : splitlinesGo ((c0 :: rest) ++ ['\n']) acc =
          acc.reverse :: splitlinesGo (rest ++ ['\n']) [] := by
        show splitlinesGo (c0 :: (rest ++ ['\n'])) acc = _
        rw [splitlinesGo_cons_eq, if_neg hcr, if_pos hlb]
      have hstep2 : splitlinesGo (c0 :: rest) acc =
          acc.reverse :: splitlinesGo rest [] := by
        rw [splitlinesGo_cons_eq, if_neg hcr, if_pos hlb]
      rcases ih with h | h
      · exact Or.inl (by rw [hstep1, hstep2, h])
      · exact Or.inr (by rw [hstep1, hstep2, h]; rfl)
  | case7 c0 rest acc hcr hlb ih =>
      have hstep1 : splitlinesGo ((c0 :: rest) ++ ['\n']) acc =
          splitlinesGo (rest ++ ['\n']) (c0 :: acc) := by
        show splitlinesGo (c0 :: (rest ++ ['\n'])) acc = _
        rw [splitlinesGo_cons_eq, if_neg hcr, if_neg hlb]
      have hstep2 : splitlinesGo (c0 :: rest) acc =
          splitlinesGo rest (c0 :: acc) := by
        rw [splitlinesGo_cons_eq, if_neg hcr, if_neg hlb]
      rcases ih with h | h
      · exact Or.inl (by rw [hstep1, hstep2, h])
      · exact Or.inr (by rw [hstep1, hstep2, h])

lemma pySplitlines_append_newline (x : List Char) :
    pySplitlines (x ++ ['\n']) = pySplitlines x ∨
    pySplitlines (x ++ ['\n']) = pySplitlines x ++ [[]] :=
  splitlinesGo_append_newline x []

/-! ### Explanation filtering -/

lemma explKeep_false_of_all_space {l : List Char}
    (h : ∀ c ∈ l, isPySpace c = true) : explKeep l = false := by
  unfold explKeep
  rw [pyStrip_eq_nil_of_all_space h]
  rfl

lemma filter_explKeep_all_space {t : List Char}
    (h : ∀ c ∈ t, isPySpace c = true) : (pySplitlines t).filter explKeep = [] := by
  rw [List.filter_eq_nil_iff]
  intro l hl
  rw [explKeep_false_of_all_space (fun c hc => h c (mem_pySplitlines_mem hl c hc))]
  simp

lemma filter_split {u : List Char} (hu : ∀ c ∈ u, isPySpace c = true)
    (y : List Char) :
    (pySplitlines (u ++ '\n' :: y)).filter explKeep =
      (pySplitlines y).filter explKeep := by
  rw [pySplitlines_split, List.filter_append]
  have h1 : (pySplitlines (u ++ ['\n'])).filter explKeep = [] := by
    refine filter_explKeep_all_space ?_
    intro c hc
    rcases List.mem_append.mp hc with h | h
    · exact hu c h
    · rcases List.mem_singleton.mp h with rfl
      decide
  rw [h1, List.nil_append]

lemma after_filter_eq {w post r : List Char}
    (hgreedy : greedyEnd (w ++ '\n' :: post) = some r)
    (hw : ∀ c ∈ w, isPySpace c = true) :
    (pySplitlines r).filter explKeep = (pySplitlines post).filter explKeep := by
  obtain ⟨u, hu1, hu2, hu3⟩ := greedyEnd_some_spec hgreedy
  rcases hu3 with rfl | ⟨r2, rfl⟩
  · rw [List.append_nil] at hu1
    have hpost : ∀ c ∈ post, isPySpace c = true := by
      intro c hc
      refine hu2 c ?_
      rw [← hu1]
      exact List.mem_append.mpr (Or.inr (List.mem_cons_of_mem _ hc))
    rw [filter_explKeep_all_space hpost]
    rfl
  · have e1 : (pySplitlines ('\n' :: r2)).filter explKeep =
        (pySplitlines r2).filter explKeep := filter_split (u := []) (by simp) r2
    have e2 : (pySplitlines (u ++ '\n' :: r2)).filter explKeep =
        (pySplitlines r2).filter explKeep := filter_split hu2 r2
    have e3 : (pySplitlines (w ++ '\n' :: post)).filter explKeep =
        (pySplitlines post).filter explKeep := filter_split hw post
    rw [hu1] at e3
    rw [e1, ← e2, e3]

lemma parseBeforeAux_append_empty (ls : List (List Char)) :
    ∀ q ch corr, parseBeforeAux (ls ++ [[]]) q ch corr = parseBeforeAux ls q ch corr := by
  induction ls with
  | nil =>
      intro q ch corr
      rw [List.nil_append, parseBeforeAux_cons, if_pos (by decide)]
  | cons raw rest ih =>
      intro q ch corr
      rw [List.cons_append, parseBeforeAux_cons, parseBeforeAux_cons]
      by_cases h1 : ((pyStrip raw).isEmpty || is_noise (pyStrip raw)) = true
      · rw [if_pos h1, if_pos h1, ih]
      · rw [if_neg h1, if_neg h1]
        cases hc : correctMatch (pyStrip raw) with
        | some g => exact ih _ _ _
        | none =>
            by_cases h2 : choiceMatch (pyStrip raw) = true
            · rw [if_pos h2, if_pos h2, ih]
            · rw [if_neg h2, if_neg h2, ih]

/-! ### Projections of `parse_qb` -/

lemma parse_qb_question (text : List Char) :
    (parse_qb text).question =
      pyStrip (parseBeforeAux (pySplitlines (beforeText text)) [] [] []).1 := by
  rw [parse_qb_eq]

lemma parse_qb_choices (text : List Char) :
    (parse_qb text).choices =
      (parseBeforeAux (pySplitlines (beforeText text)) [] [] []).2.1 := by
  rw [parse_qb_eq]

lemma parse_qb_correct (text : List Char) :
    (parse_qb text).correct =
      (parseBeforeAux (pySplitlines (beforeText text)) [] [] []).2.2 := by
  rw [parse_qb_eq]

lemma parse_qb_explanation (text : List Char) :
    (parse_qb text).explanation =
      pyStrip (joinLines ((pySplitlines (afterText text)).filter explKeep)) := by
  rw [parse_qb_eq]

lemma beforeText_of_none {text : List Char} (h : findExplain text = none) :
    beforeText text = text := by
  unfold beforeText
  rw [h]

lemma afterText_of_none {text : List Char} (h : findExplain text = none) :
    afterText text = [] := by
  unfold afterText
  rw [h]

/-- Master lemma: splitting behaviour at a well-formed explanation marker
line.  The marker line starts with 解説 at the start of its own line and
carries only whitespace after it; nothing before it is a marker line. -/
lemma parse_qb_marker_split {pre w post : List Char}
    (hpre : ∀ l ∈ linesNL pre, isMarkerLine l = false)
    (hw : ∀ c ∈ w, isPySpace c = true) :
    beforeText (pre ++ '\n' :: '解' :: '説' :: (w ++ '\n' :: post)) = pre ++ ['\n'] ∧
    (parse_qb (pre ++ '\n' :: '解' :: '説' :: (w ++ '\n' :: post))).question =
      (parse_qb pre).question ∧
    (parse_qb (pre ++ '\n' :: '解' :: '説' :: (w ++ '\n' :: post))).choices =
      (parse_qb pre).choices ∧
    (parse_qb (pre ++ '\n' :: '解' :: '説' :: (w ++ '\n' :: post))).correct =
      (parse_qb pre).correct ∧
    (parse_qb (pre ++ '\n' :: '解' :: '説' :: (w ++ '\n' :: post))).explanation =
      pyStrip (joinLines ((pySplitlines post).filter explKeep)) ∧
    (parse_qb pre).explanation = [] := by
  obtain ⟨r, hfind, hgreedy⟩ := @findExplain_marker pre w post hpre hw
  have hfe_pre : findExplain pre = none := findExplain_none_of_noMarker hpre
  have hb : beforeText (pre ++ '\n' :: '解' :: '説' :: (w ++ '\n' :: post)) = pre ++ ['\n'] := by
    unfold beforeText
    rw [hfind]
  have ha : afterText (pre ++ '\n' :: '解' :: '説' :: (w ++ '\n' :: post)) = r := by
    unfold afterText
    rw [hfind]
  have hlines : parseBeforeAux (pySplitlines (pre ++ ['\n'])) [] [] [] =
      parseBeforeAux (pySplitlines pre) [] [] [] := by
    rcases pySplitlines_append_newline pre with h | h
    · rw [h]
    · rw [h, parseBeforeAux_append_empty]
  have hfil : (pySplitlines r).filter explKeep =
      (pySplitlines post).filter explKeep := after_filter_eq hgreedy hw
  refine ⟨hb, ?_, ?_, ?_, ?_, ?_⟩
  · rw [parse_qb_question, parse_qb_question, hb, beforeText_of_none hfe_pre, hlines]
  · rw [parse_qb_choices, parse_qb_choices, hb, beforeText_of_none hfe_pre, hlines]
  · rw [parse_qb_correct, parse_qb_correct, hb, beforeText_of_none hfe_pre, hlines]
  · rw [parse_qb_explanation, ha, hfil]
  · rw [parse_qb_explanation, afterText_of_none hfe_pre]
    rfl

/-! ### Characterizations used by several claims -/

lemma choices_characterization (text : List Char) :
    (parse_qb text).choices =
      ((pySplitlines (beforeText text)).filter goodChoice).map
        (fun raw => stripStar (pyStrip raw)) := by
  rw [parse_qb_choices, parseBeforeAux_choices, List.nil_append]

lemma question_lines (text : List Char) :
    ∀ l ∈ linesNL ((parse_qb text).question), l = [] ∨ goodQ l := by
  rw [parse_qb_question]
  have hinv := parseBeforeAux_question (pySplitlines (beforeText text)) [] [] []
    (fun raw hraw => pySplitlines_no_nl hraw) (Or.inl rfl)
  rcases hinv with h0 | ⟨hs, hl⟩
  · rw [h0]
    intro l hlm
    rw [pyStrip_nil, linesNL_nil] at hlm
    exact Or.inl (List.mem_singleton.mp hlm)
  · rw [hs]
    intro l hlm
    exact Or.inr (hl l hlm)

lemma choiceEnum_toNat {c : Char} (h : choiceEnum c = true) :
    (0x31 ≤ c.toNat ∧ c.toNat ≤ 0x35) ∨ (0x41 ≤ c.toNat ∧ c.toNat ≤ 0x45) ∨
    (0x61 ≤ c.toNat ∧ c.toNat ≤ 0x65) ∨ (0x2460 ≤ c.toNat ∧ c.toNat ≤ 0x2464) ∨
    (0xFF11 ≤ c.toNat ∧ c.toNat ≤ 0xFF15) ∨ (0xFF41 ≤ c.toNat ∧ c.toNat ≤ 0xFF45) := by
  unfold choiceEnum at h
  simp only [Bool.or_eq_true, beq_iff_eq, between_iff] at h
  rcases h with ((((((h | h) | h) | h) | h) | h) | h) | h
  · subst h
    exact Or.inr (Or.inr (Or.inl (by decide)))
  · subst h
    exact Or.inr (Or.inl (by decide))
  · exact Or.inr (Or.inr (Or.inr (Or.inr (Or.inr h))))
  · exact Or.inr (Or.inr (Or.inl h))
  · exact Or.inr (Or.inl h)
  · exact Or.inr (Or.inr (Or.inr (Or.inr (Or.inl h))))
  · exact Or.inl h
  · exact Or.inr (Or.inr (Or.inr (Or.inl h)))

lemma choiceEnum_not_space {c : Char} (h : choiceEnum c = true) :
    isPySpace c = false := by
  have henum := choiceEnum_toNat h
  cases hsp : isPySpace c
  · rfl
  · exfalso
    unfold isPySpace at hsp
    simp only [Bool.or_eq_true, Bool.and_eq_true, beq_iff_eq, Nat.ble_eq] at hsp
    rcases henum with h1 | h1 | h1 | h1 | h1 | h1 <;> omega

lemma stripStar_strip {l : List Char} (hs : pyStrip l = l)
    (hc : choiceMatch l = true) : pyStrip (stripStar l) = stripStar l := by
  unfold choiceMatch at hc
  split at hc
  · rename_i r
    have hstar : stripStar ('*' :: r) = r.dropWhile isPySpace := rfl
    split at hc
    · rename_i c d tl hdw
      apply pyStrip_eq_self
      · intro e he
        rw [hstar, hdw] at he
        injection he with he
        subst he
        exact head?_dropWhile_false (t := r) (by rw [hdw]; rfl)
      · intro e he
        rw [hstar] at he
        have hne : r.dropWhile isPySpace ≠ [] := by
          rw [hdw]
          exact List.cons_ne_nil _ _
        have hlast_r : r.getLast? = (r.dropWhile isPySpace).getLast? := by
          conv_lhs => rw [← List.takeWhile_append_dropWhile isPySpace r]
          rw [List.getLast?_append]
          obtain ⟨e0, he0⟩ : ∃ e0, (r.dropWhile isPySpace).getLast? = some e0 := by
            cases h0 : (r.dropWhile isPySpace).getLast? with
            | none => exact absurd (List.getLast?_eq_none_iff.mp h0) hne
            | some e0 => exact ⟨e0, rfl⟩
          rw [he0]
          rfl
        have hlast_l : (('*' :: r) : List Char).getLast? = r.getLast? := by
          show ((['*'] ++ r) : List Char).getLast? = r.getLast?
          rw [List.getLast?_append]
          have hrne : r ≠ [] := by
            intro h0
            subst h0
            simp at hdw
          obtain ⟨e0, he0⟩ : ∃ e0, r.getLast? = some e0 := by
            cases h0 : r.getLast? with
            | none => exact absurd (List.getLast?_eq_none_iff.mp h0) hrne
            | some e0 => exact ⟨e0, rfl⟩
          rw [he0]
          rfl
        refine getLast?_of_strip_eq_self hs e ?_
        rw [hlast_l, hlast_r, he]
    · cases hc
  · cases hc

/-! ### Interior lines of the explanation -/

lemma pyLStrip_ne_nil_of_strip {l : List Char} (h : pyStrip l ≠ []) :
    pyLStrip l ≠ [] := by
  intro h0
  apply h
  unfold pyStrip
  rw [h0]
  rfl

lemma pyRStrip_eq_nil_iff {l : List Char} :
    pyRStrip l = [] ↔ ∀ c ∈ l, isPySpace c = true := by
  unfold pyRStrip
  rw [List.reverse_eq_nil_iff, List.dropWhile_eq_nil_iff]
  constructor
  · intro h c hc
    exact h c (List.mem_reverse.mpr hc)
  · intro h c hc
    exact h c (List.mem_reverse.mp hc)

lemma pyRStrip_append {x y : List Char} (hy : pyRStrip y ≠ []) :
    pyRStrip (x ++ y) = x ++ pyRStrip y := by
  unfold pyRStrip
  rw [List.reverse_append, List.dropWhile_append]
  have h1 : (y.reverse.dropWhile isPySpace).isEmpty = false := by
    rw [List.isEmpty_eq_false]
    intro h0
    apply hy
    unfold pyRStrip
    rw [h0]
    rfl
  rw [if_neg (by simp [h1]), List.reverse_append, List.reverse_reverse]

lemma pyLStrip_append {x y : List Char} (hx : pyLStrip x ≠ []) :
    pyLStrip (x ++ y) = pyLStrip x ++ y := by
  unfold pyLStrip
  rw [List.dropWhile_append]
  have h1 : (x.dropWhile isPySpace).isEmpty = false := by
    rw [List.isEmpty_eq_false]
    exact hx
  rw [if_neg (by simp [h1])]

lemma joinLines_cons_cons (a b : List Char) (rest : List (List Char)) :
    joinLines (a :: b :: rest) = a ++ '\n' :: joinLines (b :: rest) := rfl

lemma pyRStrip_joinLines_ne_nil : ∀ (ls : List (List Char)), ls ≠ [] →
    (∀ l ∈ ls, pyStrip l ≠ []) → pyRStrip (joinLines ls) ≠ [] := by
  intro ls
  induction ls with
  | nil => intro h; exact absurd rfl h
  | cons a rest ih =>
      intro _ hall
      cases rest with
      | nil =>
          have ha := hall a (List.mem_singleton.mpr rfl)
          show pyRStrip a ≠ []
          intro h0
          apply ha
          exact pyStrip_eq_nil_of_all_space (pyRStrip_eq_nil_iff.mp h0)
      | cons b rest' =>
          have hJ : pyRStrip (joinLines (b :: rest')) ≠ [] :=
            ih (List.cons_ne_nil _ _) (fun l hl => hall l (List.mem_cons_of_mem _ hl))
          rw [joinLines_cons_cons]
          have h2 : pyRStrip ('\n' :: joinLines (b :: rest')) =
              '\n' :: pyRStrip (joinLines (b :: rest')) := by
            show pyRStrip (['\n'] ++ joinLines (b :: rest')) = _
            rw [pyRStrip_append hJ]
            rfl
          rw [pyRStrip_append (x := a) (by rw [h2]; exact List.cons_ne_nil _ _), h2]
          simp

lemma pyRStrip_joinLines_eq : ∀ (ls : List (List Char)), ls ≠ [] →
    (∀ l ∈ ls, pyStrip l ≠ []) →
    ∃ z, pyRStrip (joinLines ls) = joinLines (ls.dropLast ++ [z]) ∧
      ∃ l0 ∈ ls, ∀ c ∈ z, c ∈ l0 := by
  intro ls
  induction ls with
  | nil => intro h; exact absurd rfl h
  | cons a rest ih =>
      intro _ hall
      cases rest with
      | nil =>
          refine ⟨pyRStrip a, rfl, a, List.mem_singleton.mpr rfl, ?_⟩
          intro c hc
          unfold pyRStrip at hc
          rw [List.mem_reverse] at hc
          have := (List.dropWhile_sublist isPySpace (l := a.reverse)).subset hc
          rwa [List.mem_reverse] at this
      | cons b rest' =>
          obtain ⟨z, hz1, l0, hl0, hz2⟩ :=
            ih (List.cons_ne_nil _ _) (fun l hl => hall l (List.mem_cons_of_mem _ hl))
          have hJ : pyRStrip (joinLines (b :: rest')) ≠ [] :=
            pyRStrip_joinLines_ne_nil _ (List.cons_ne_nil _ _)
              (fun l hl => hall l (List.mem_cons_of_mem _ hl))
          have h2 : pyRStrip ('\n' :: joinLines (b :: rest')) =
              '\n' :: pyRStrip (joinLines (b :: rest')) := by
            show pyRStrip (['\n'] ++ joinLines (b :: rest')) = _
            rw [pyRStrip_append hJ]
            rfl
          refine ⟨z, ?_, ?_⟩
          · rw [joinLines_cons_cons,
              pyRStrip_append (x := a) (by rw [h2]; exact List.cons_ne_nil _ _), h2, hz1]
            have hd : ((a :: b :: rest').dropLast ++ [z]) =
                a :: ((b :: rest').dropLast ++ [z]) := by
              rfl
            rw [hd]
            have hne2 : (b :: rest').dropLast ++ [z] ≠ [] := by
              intro h0
              exact absurd (List.append_eq_nil.mp h0).2 (List.cons_ne_nil _ _)
            cases hdd : (b :: rest').dropLast ++ [z] with
            | nil => exact absurd hdd hne2
            | cons u us =>
                rfl
          · exact ⟨l0, List.mem_cons_of_mem _ hl0, hz2⟩

lemma linesNL_joinLines : ∀ (ls : List (List Char)), ls ≠ [] →
    (∀ l ∈ ls, '\n' ∉ l) → linesNL (joinLines ls) = ls := by
  intro ls
  induction ls with
  | nil => intro h; exact absurd rfl h
  | cons a rest ih =>
      intro _ hall
      cases rest with
      | nil => exact linesNL_single (hall a (List.mem_singleton.mpr rfl))
      | cons b rest' =>
          rw [joinLines_cons_cons, linesNL_append_nl,
            linesNL_single (hall a (List.mem_cons_self _ _)),
            ih (List.cons_ne_nil _ _) (fun l hl => hall l (List.mem_cons_of_mem _ hl))]
          rfl

lemma expl_interior (fls : List (List Char))
    (hfls : ∀ l ∈ fls, pyStrip l ≠ [] ∧ '\n' ∉ l) :
    ∀ x ∈ ((linesNL (pyStrip (joinLines fls))).drop 1).dropLast, x ∈ fls := by
  cases fls with
  | nil =>
      intro x hx
      rw [show pyStrip (joinLines []) = [] from rfl, linesNL_nil] at hx
      simp at hx
  | cons a rest =>
      cases rest with
      | nil =>
          intro x hx
          have hnl : '\n' ∉ pyStrip a :=
            fun h => (hfls a (List.mem_singleton.mpr rfl)).2 (mem_pyStrip h)
          rw [show joinLines [a] = a from rfl, linesNL_single hnl] at hx
          simp at hx
      | cons b rest' =>
          intro x hx
          have hall_ne : ∀ l ∈ (a :: b :: rest'), pyStrip l ≠ [] :=
            fun l hl => (hfls l hl).1
          have hJ : pyRStrip (joinLines (b :: rest')) ≠ [] :=
            pyRStrip_joinLines_ne_nil _ (List.cons_ne_nil _ _)
              (fun l hl => hall_ne l (List.mem_cons_of_mem _ hl))
          have hLa : pyLStrip a ≠ [] :=
            pyLStrip_ne_nil_of_strip (hall_ne a (List.mem_cons_self _ _))
          have h2 : pyRStrip ('\n' :: joinLines (b :: rest')) =
              '\n' :: pyRStrip (joinLines (b :: rest')) := by
            show pyRStrip (['\n'] ++ joinLines (b :: rest')) = _
            rw [pyRStrip_append hJ]
            rfl
          have hstrip : pyStrip (joinLines (a :: b :: rest')) =
              pyLStrip a ++ '\n' :: pyRStrip (joinLines (b :: rest')) := by
            unfold pyStrip
            rw [joinLines_cons_cons, pyLStrip_append hLa]
            rw [show pyLStrip a ++ '\n' :: joinLines (b :: rest') =
              pyLStrip a ++ (['\n'] ++ joinLines (b :: rest')) from by simp]
            rw [pyRStrip_append (x := pyLStrip a) (by rw [pyRStrip_append hJ]; simp)]
            rw [pyRStrip_append hJ]
            rfl
          obtain ⟨z, hz1, l0, hl0, hz2⟩ :=
            pyRStrip_joinLines_eq (b :: rest') (List.cons_ne_nil _ _)
              (fun l hl => hall_ne l (List.mem_cons_of_mem _ hl))
          have hnlA : '\n' ∉ pyLStrip a :=
            fun h => (hfls a (List.mem_cons_self _ _)).2
              ((List.dropWhile_sublist _).subset h)
          rw [hstrip, hz1, linesNL_append_nl, linesNL_single hnlA] at hx
          have hfree : ∀ l ∈ (b :: rest').dropLast ++ [z], '\n' ∉ l := by
            intro l hl
            rcases List.mem_append.mp hl with h | h
            · exact (hfls l (List.mem_cons_of_mem _
                ((List.dropLast_sublist _).subset h))).2
            · rcases List.mem_singleton.mp h with rfl
              intro hnn
              exact (hfls l0 (List.mem_cons_of_mem _ hl0)).2 (hz2 _ hnn)
          have hne3 : (b :: rest').dropLast ++ [z] ≠ [] := by
            intro h0
            exact absurd (List.append_eq_nil.mp h0).2 (List.cons_ne_nil _ _)
          rw [show ([pyLStrip a] ++ linesNL (joinLines ((b :: rest').dropLast ++ [z]))).drop 1
              = linesNL (joinLines ((b :: rest').dropLast ++ [z])) from rfl,
            linesNL_joinLines _ hne3 hfree, List.dropLast_concat] at hx
          exact List.mem_cons_of_mem _ ((List.dropLast_sublist _).subset hx)

lemma choiceMatch_iff (t : List Char) :
    choiceMatch t = true ↔
      ∃ u c d rest, t = '*' :: (u ++ c :: d :: rest) ∧
        (∀ x ∈ u, isPySpace x = true) ∧ choiceEnum c = true ∧ isPySpace d = true := by
  constructor
  · intro h
    unfold choiceMatch at h
    split at h
    · rename_i r
      split at h
      · rename_i c d tl hdw
        rw [Bool.and_eq_true] at h
        refine ⟨r.takeWhile isPySpace, c, d, tl, ?_, ?_, h.1, h.2⟩
        · rw [← hdw, List.takeWhile_append_dropWhile]
        · intro x hx
          exact List.mem_takeWhile_imp hx
      · cases h
    · cases h
  · rintro ⟨u, c, d, rest, rfl, hu, hc, hd⟩
    show (match ((u ++ c :: d :: rest) : List Char).dropWhile isPySpace with
      | c :: d :: _ => choiceEnum c && isPySpace d
      | _ => false) = true
    rw [List.dropWhile_append_of_pos hu,
      List.dropWhile_cons_of_neg (by simp [choiceEnum_not_space hc])]
    simp [hc, hd]

lemma goodChoice_components {raw : List Char} (h : goodChoice raw = true) :
    (pyStrip raw).isEmpty = false ∧ is_noise (pyStrip raw) = false ∧
    correctMatch (pyStrip raw) = none ∧ choiceMatch (pyStrip raw) = true := by
  unfold goodChoice at h
  rw [Bool.and_eq_true, Bool.and_eq_true, Bool.and_eq_true] at h
  refine ⟨?_, ?_, ?_, h.2⟩
  · have := h.1.1.1
    cases h0 : (pyStrip raw).isEmpty
    · rfl
    · rw [h0] at this
      cases this
  · have := h.1.1.2
    cases h0 : is_noise (pyStrip raw)
    · rfl
    · rw [h0] at this
      cases this
  · have := h.1.2
    cases h0 : correctMatch (pyStrip raw)
    · rfl
    · rw [h0] at this
      cases this

lemma goodChoice_of_components {raw : List Char}
    (h1 : pyStrip raw ≠ []) (h2 : is_noise (pyStrip raw) = false)
    (h3 : correctMatch (pyStrip raw) = none)
    (h4 : choiceMatch (pyStrip raw) = true) : goodChoice raw = true := by
  unfold goodChoice
  rw [Bool.and_eq_true, Bool.and_eq_true, Bool.and_eq_true]
  refine ⟨⟨⟨?_, ?_⟩, ?_⟩, h4⟩
  · rw [List.isEmpty_eq_false.mpr h1]
    rfl
  · rw [h2]
    rfl
  · rw [h3]
    rfl

/-! ### The claims -/

/-- Claim C1: for the input
`質問文\n* a 選択肢1\n* b 選択肢2\n正解：b\n解説\n説明文です` the classifier
returns question `質問文`, choices `a 選択肢1` and `b 選択肢2`, correct `B`,
and explanation `説明文です`. -/
theorem c1_scenario_basic :
    parse_qb ("質問文\n* a 選択肢1\n* b 選択肢2\n正解：b\n解説\n説明文です".data) =
      ⟨"質問文".data, ["a 選択肢1".data, "b 選択肢2".data], "B".data, "説明文です".data⟩ := by
  decide

/-- Claim C2, counterexample: the correct-answer token `１` (a full-width
digit) is accepted by `CORRECT_RE`, but `to_half` converts only Latin
letters and `upper` does not change digits, so the stored `correct` is the
full-width character `１`, not a half-width character.  This refutes
"that field is a single uppercase half-width character". -/
theorem c2_fullwidth_digit_counterexample :
    (parse_qb ("正解：１".data)).correct = ['１'] ∧ isHalfWidth '１' = false := by
  decide

/-- Claim C2, amended: whenever `correct` is non-empty it is a single
character that is either a half-width upper-case letter `A`-`E` (all Latin
letter tokens, full-width or half-width, upper or lower case, normalize to
these), a digit `1`-`5` kept in its original half-width or full-width form,
or a circled numeral kept as is; in particular `正解：Ａ` yields exactly
`A`. -/
theorem c2_correct_normalized_amended :
    (∀ text : List Char, (parse_qb text).correct = [] ∨
      ∃ c, (parse_qb text).correct = [c] ∧ normCorrect c = true) ∧
    (parse_qb ("正解：Ａ".data)).correct = ['A'] := by
  constructor
  · intro text
    rw [parse_qb_correct]
    exact parseBeforeAux_correct _ _ _ _ (Or.inl rfl)
  · decide

/-- Claim C3, counterexample: a line whose enumerator is the full-width
upper-case letter `Ａ` is not matched by `CHOICE_RE` (whose class contains
the full-width letters only in lower case, and which is compiled without
`re.IGNORECASE`), so the line goes to `question`, not to `choices`.  This
refutes "a line whose enumerator is a full-width uppercase letter is
appended to `choices`". -/
theorem c3_fullwidth_upper_counterexample :
    (parse_qb ("* Ａ 選択肢".data)).choices = [] ∧
    (parse_qb ("* Ａ 選択肢".data)).question = "* Ａ 選択肢".data := by
  decide

/-- Claim C3, amended: a stripped line matches the choice pattern exactly
when it is `*`, then optional whitespace, then a single enumerator from
a/A, half-width `a`-`e` or `A`-`E`, full-width lower-case `ａ`-`ｅ` (the
full-width capitals `Ａ`-`Ｅ` are not accepted), digits `1`-`5` in either
width, or circled `①`-`⑤`, followed by one whitespace character; and every
non-blank, non-noise, non-correct-answer "before"-segment line matching the
pattern is appended to `choices` with the marker stripped. -/
theorem c3_choice_pattern_amended :
    (∀ t : List Char, choiceMatch t = true ↔
      ∃ u c d rest, t = '*' :: (u ++ c :: d :: rest) ∧
        (∀ x ∈ u, isPySpace x = true) ∧ choiceEnum c = true ∧ isPySpace d = true) ∧
    (∀ text raw : List Char, raw ∈ pySplitlines (beforeText text) →
      pyStrip raw ≠ [] → is_noise (pyStrip raw) = false →
      correctMatch (pyStrip raw) = none → choiceMatch (pyStrip raw) = true →
      stripStar (pyStrip raw) ∈ (parse_qb text).choices) := by
  constructor
  · exact choiceMatch_iff
  · intro text raw hmem hne hnoise hcm hch
    rw [choices_characterization]
    exact List.mem_map.mpr
      ⟨raw, List.mem_filter.mpr ⟨hmem, goodChoice_of_components hne hnoise hcm hch⟩, rfl⟩

/-- Witness for the amended claim C3 at a concrete input. -/
theorem c3_choice_pattern_amended_witness :
    stripStar (pyStrip ("* a 選択肢1".data)) ∈
      (parse_qb ("質問\n* a 選択肢1".data)).choices :=
  c3_choice_pattern_amended.2 ("質問\n* a 選択肢1".data) ("* a 選択肢1".data)
    (by decide) (by decide) (by decide) (by decide) (by decide)

/-- Claim C4, counterexample: the marker regex `^解説\s*$` anchors 解説 at
the very start of the line, so a marker line with leading whitespace does
not split the input: the explanation stays empty and the marker line is
classified into the question.  This refutes "possibly with surrounding
(leading and/or trailing) whitespace". -/
theorem c4_leading_whitespace_counterexample :
    pyStrip (" 解説".data) = "解説".data ∧
    (parse_qb (" 解説\nX".data)).explanation = [] ∧
    (parse_qb (" 解説\nX".data)).question = "解説\nX".data := by
  decide

/-- Claim C4, amended: the input is split at the first line that starts
with 解説 at the very beginning of the line followed only by (trailing)
whitespace; everything preceding that line is the "before" segment and the
following lines, filtered of blank and noise lines, joined and trimmed,
become the explanation.  If no such line exists the whole input is the
"before" segment and the explanation is empty. -/
theorem c4_marker_split_amended :
    (∀ text : List Char, (∀ l ∈ linesNL text, isMarkerLine l = false) →
      beforeText text = text ∧ (parse_qb text).explanation = []) ∧
    (∀ pre w post : List Char, (∀ l ∈ linesNL pre, isMarkerLine l = false) →
      (∀ c ∈ w, isPySpace c = true) →
      beforeText (pre ++ '\n' :: '解' :: '説' :: (w ++ '\n' :: post)) = pre ++ ['\n'] ∧
      (parse_qb (pre ++ '\n' :: '解' :: '説' :: (w ++ '\n' :: post))).explanation =
        pyStrip (joinLines ((pySplitlines post).filter explKeep))) := by
  constructor
  · intro text h
    have hf := findExplain_none_of_noMarker h
    refine ⟨beforeText_of_none hf, ?_⟩
    rw [parse_qb_explanation, afterText_of_none hf]
    rfl
  · intro pre w post h1 h2
    obtain ⟨hb, _, _, _, he, _⟩ := parse_qb_marker_split h1 h2
    exact ⟨hb, he⟩

/-- Witness for the amended claim C4 at a concrete input. -/
theorem c4_marker_split_amended_witness :
    beforeText ("質問".data ++ '\n' :: '解' :: '説' ::
        (([] : List Char) ++ '\n' :: "説明".data)) = "質問".data ++ ['\n'] ∧
    (parse_qb ("質問".data ++ '\n' :: '解' :: '説' ::
        (([] : List Char) ++ '\n' :: "説明".data))).explanation =
      pyStrip (joinLines ((pySplitlines ("説明".data)).filter explKeep)) :=
  c4_marker_split_amended.2 ("質問".data) [] ("説明".data) (by decide) (by decide)

/-- Claim C5: `choices` is exactly the source-ordered list of the non-blank,
non-noise "before"-segment lines that are not correct-answer lines and
match the choice pattern, each with the leading `*` and following
whitespace removed. -/
theorem c5_choices_list : ∀ text : List Char,
    (parse_qb text).choices =
      ((pySplitlines (beforeText text)).filter goodChoice).map
        (fun raw => stripStar (pyStrip raw)) :=
  choices_characterization

/-- Claim C6: no line of `question` matches a noise, choice or
correct-answer pattern, and every entry of `choices` comes from a
non-noise line matching the choice pattern (noise is tested before
classification, so a noise line never reaches `choices` or `question`). -/
theorem c6_question_clean : ∀ text : List Char,
    (∀ l ∈ linesNL ((parse_qb text).question),
      is_noise l = false ∧ choiceMatch l = false ∧ correctMatch l = none) ∧
    (∀ e ∈ (parse_qb text).choices, ∃ raw, raw ∈ pySplitlines (beforeText text) ∧
      is_noise (pyStrip raw) = false ∧ choiceMatch (pyStrip raw) = true ∧
      e = stripStar (pyStrip raw)) := by
  intro text
  constructor
  · intro l hl
    rcases question_lines text l hl with rfl | hg
    · exact ⟨by decide, by decide, by decide⟩
    · exact ⟨hg.2.2.2.1, hg.2.2.2.2.2, hg.2.2.2.2.1⟩
  · intro e he
    rw [choices_characterization] at he
    obtain ⟨raw, hr, rfl⟩ := List.mem_map.mp he
    have h1 := List.mem_filter.mp hr
    obtain ⟨_, hnoise, _, hch⟩ := goodChoice_components h1.2
    exact ⟨raw, h1.1, hnoise, hch, rfl⟩

/-- Witness for claim C6 at a concrete input. -/
theorem c6_question_clean_witness :
    is_noise ("質問文".data) = false ∧ choiceMatch ("質問文".data) = false ∧
    correctMatch ("質問文".data) = none :=
  (c6_question_clean ("質問文\n* a 選択肢\n正解：b".data)).1 ("質問文".data) (by decide)

/-- Claim C7: the classifier is a total function (the embedding returns a
plain record with no error channel), and the empty input yields the record
with all four fields empty. -/
theorem c7_empty_input : parse_qb [] = ⟨[], [], [], []⟩ := by decide

/-- Claim C8: parsing is deterministic and idempotent across invocations:
the classifier is a pure function of the input string, so two invocations
on the same string give the same record. -/
theorem c8_deterministic : ∀ text : List Char, parse_qb text = parse_qb text :=
  fun _ => rfl

/-- Claim C9: every line of `question` and every entry of `choices` is
free of leading and trailing whitespace (before-segment lines are stripped
individually), while the explanation keeps its lines untrimmed: every
interior newline-delimited line of `explanation` is verbatim one of the
"after"-segment lines (only the joined whole is trimmed at its two ends). -/
theorem c9_line_trimming : ∀ text : List Char,
    (∀ l ∈ linesNL ((parse_qb text).question), pyStrip l = l) ∧
    (∀ e ∈ (parse_qb text).choices, pyStrip e = e) ∧
    (∀ x ∈ ((linesNL ((parse_qb text).explanation)).drop 1).dropLast,
      x ∈ pySplitlines (afterText text)) := by
  intro text
  refine ⟨?_, ?_, ?_⟩
  · intro l hl
    rcases question_lines text l hl with rfl | hg
    · rfl
    · exact hg.1
  · intro e he
    rw [choices_characterization] at he
    obtain ⟨raw, hr, rfl⟩ := List.mem_map.mp he
    obtain ⟨_, _, _, hch⟩ := goodChoice_components (List.mem_filter.mp hr).2
    exact stripStar_strip (pyStrip_idem raw) hch
  · intro x hx
    rw [parse_qb_explanation] at hx
    have hfls : ∀ l ∈ (pySplitlines (afterText text)).filter explKeep,
        pyStrip l ≠ [] ∧ '\n' ∉ l := by
      intro l hl
      have h1 := List.mem_filter.mp hl
      constructor
      · have h2 := h1.2
        unfold explKeep at h2
        rw [Bool.and_eq_true] at h2
        intro h0
        rw [h0] at h2
        cases h2.1
      · exact pySplitlines_no_nl h1.1
    exact (List.mem_filter.mp (expl_interior _ hfls x hx)).1

/-- Witness for claim C9 at a concrete input: the question line is
stripped, and the interior explanation line keeps its surrounding
whitespace verbatim. -/
theorem c9_line_trimming_witness :
    pyStrip ("質問".data) = "質問".data ∧
    " い ".data ∈ pySplitlines (afterText ("質問\n解説\nあ\n い \nう".data)) :=
  ⟨(c9_line_trimming ("質問\n解説\nあ\n い \nう".data)).1 ("質問".data) (by decide),
   (c9_line_trimming ("質問\n解説\nあ\n い \nう".data)).2.2 (" い ".data) (by decide)⟩

/-- Claim C10: classification applies only to the "before" segment.  For an
input with an explanation marker, the `correct`, `choices` and `question`
fields equal those obtained from the "before" segment alone (a
correct-answer or choice line after the marker does not affect them), and
non-blank non-noise lines after the marker are kept as explanation lines. -/
theorem c10_after_marker_unclassified :
    ∀ pre w post : List Char, (∀ l ∈ linesNL pre, isMarkerLine l = false) →
      (∀ c ∈ w, isPySpace c = true) →
      (parse_qb (pre ++ '\n' :: '解' :: '説' :: (w ++ '\n' :: post))).correct =
        (parse_qb pre).correct ∧
      (parse_qb (pre ++ '\n' :: '解' :: '説' :: (w ++ '\n' :: post))).choices =
        (parse_qb pre).choices ∧
      (parse_qb (pre ++ '\n' :: '解' :: '説' :: (w ++ '\n' :: post))).question =
        (parse_qb pre).question ∧
      (parse_qb (pre ++ '\n' :: '解' :: '説' :: (w ++ '\n' :: post))).explanation =
        pyStrip (joinLines ((pySplitlines post).filter explKeep)) ∧
      (∀ l ∈ pySplitlines post, explKeep l = true →
        l ∈ (pySplitlines post).filter explKeep) := by
  intro pre w post h1 h2
  obtain ⟨_, hq, hch, hco, he, _⟩ := parse_qb_marker_split h1 h2
  exact ⟨hco, hch, hq, he, fun l hl hk => List.mem_filter.mpr ⟨hl, hk⟩⟩

/-- Witness for claim C10 at a concrete input: a correct-answer line after
the marker does not overwrite the `correct` captured before it. -/
theorem c10_after_marker_unclassified_witness :
    (parse_qb ("正解：a".data ++ '\n' :: '解' :: '説' ::
        (([] : List Char) ++ '\n' :: "正解：b".data))).correct =
      (parse_qb ("正解：a".data)).correct :=
  (c10_after_marker_unclassified ("正解：a".data) [] ("正解：b".data)
    (by decide) (by decide)).1

end QBAnki